import Mathlib

/-!
Verification of the soundboard-snag tool (src/soundboard-snag.py).

The Python source is shallowly embedded: strings are `List Char` (ASCII
character semantics; the script only manipulates ASCII markup and the
character classes it tests — whitespace, digits, hex digits, the invalid
filename characters, control characters — are ASCII), regular-expression
operations are translated into bespoke executable scanners with the exact
greedy/lazy and leftmost, non-overlapping `findall`/`sub` semantics of the
specific patterns in the source, and the effectful download loop becomes a
pure state-passing function over an abstract network/filesystem world.
-/

namespace SBSnag


/-! ## Character classes (ASCII model) -/

/-- The characters replaced by `-` in `_sanitize_filename`
(regex `[<>:"/\\|?*]`, soundboard-snag.py line 222). -/
def invalidChars : List Char := ['<', '>', ':', '"', '/', '\\', '|', '?', '*']

def isInvalid (c : Char) : Bool := invalidChars.contains c

/-- Control characters removed by `_sanitize_filename`
(regex `[\x00-\x1f\x7f]`, line 225). -/
def isCtl (c : Char) : Bool := c.toNat ≤ 31 || c.toNat == 127

/-- Python `\s` / `str.strip()` whitespace, ASCII range:
space, `\t`, `\n`, `\v`, `\f`, `\r`. -/
def isPyWs (c : Char) : Bool :=
  c.toNat == 32 || (9 ≤ c.toNat && c.toNat ≤ 13)

/-- `\d` (ASCII): `0`-`9`. -/
def isDigitCh (c : Char) : Bool := 48 ≤ c.toNat && c.toNat ≤ 57

/-- `[a-f0-9]` with `re.IGNORECASE`. -/
def isHexCh (c : Char) : Bool :=
  isDigitCh c || (97 ≤ c.toNat && c.toNat ≤ 102) || (65 ≤ c.toNat && c.toNat ≤ 70)

def isAsciiLower (c : Char) : Bool := 97 ≤ c.toNat && c.toNat ≤ 122

def isAsciiUpper (c : Char) : Bool := 65 ≤ c.toNat && c.toNat ≤ 90

def isCased (c : Char) : Bool := isAsciiLower c || isAsciiUpper c

def chUpper (c : Char) : Char := if isAsciiLower c then Char.ofNat (c.toNat - 32) else c

def chLower (c : Char) : Char := if isAsciiUpper c then Char.ofNat (c.toNat + 32) else c

/-! ## Python string primitives -/

def pyLStrip (s : List Char) : List Char := s.dropWhile isPyWs

def pyRStripBy (p : Char → Bool) (s : List Char) : List Char :=
  (s.reverse.dropWhile p).reverse

/-- Python `str.strip()` (no arguments: whitespace). -/
def pyStrip (s : List Char) : List Char := pyRStripBy isPyWs (pyLStrip s)

/-- Python `name.rstrip('. ')` (line 231). -/
def rstripDotSpace (s : List Char) : List Char :=
  pyRStripBy (fun c => c == '.' || c == ' ') s

/-- Python `str.upper()` (ASCII). -/
def pyUpper (s : List Char) : List Char := s.map chUpper

/-- Python `str.islower()`: at least one cased character and no cased
character is uppercase. -/
def pyIslower (s : List Char) : Bool :=
  s.any isCased && s.all (fun c => !isCased c || isAsciiLower c)

/-- Python `str.isupper()`. -/
def pyIsupper (s : List Char) : Bool :=
  s.any isCased && s.all (fun c => !isCased c || isAsciiUpper c)

/-- One step of Python `str.title()`: a cased character following a cased
character is lowercased, a cased character following a non-cased position is
uppercased (CPython semantics, ASCII model). -/
def pyTitleGo : Bool → List Char → List Char
  | _, [] => []
  | prevCased, c :: rest =>
    (if isCased c then (if prevCased then chLower c else chUpper c) else c)
      :: pyTitleGo (isCased c) rest

/-- Python `str.title()` (line 235). -/
def pyTitle (s : List Char) : List Char := pyTitleGo false s

/-! ## `html.unescape` (modelled subset)

The source calls the standard library `html.unescape` (line 196).  We model
it on decimal numeric character references (`&#NNN` with optional `;`) and
the named entities `&amp; &lt; &gt; &quot; &apos;`; the scan-and-substitute
structure (longest reference at each `&`, left to right) is that of the
library function. -/

def digitsVal (ds : List Char) : Nat := ds.foldl (fun a c => 10 * a + (c.toNat - 48)) 0

def namedEntity (s : List Char) : Option (Char × Nat) :=
  if s.take 4 = ['a', 'm', 'p', ';'] then some ('&', 4)
  else if s.take 3 = ['l', 't', ';'] then some ('<', 3)
  else if s.take 3 = ['g', 't', ';'] then some ('>', 3)
  else if s.take 5 = ['q', 'u', 'o', 't', ';'] then some ('"', 5)
  else if s.take 5 = ['a', 'p', 'o', 's', ';'] then some (Char.ofNat 39, 5)
  else none

def numericEntity (s : List Char) : Option (Char × Nat) :=
  match s with
  | c :: r =>
    if c = '#' then
      (let ds := r.takeWhile isDigitCh
       if ds = [] then none
       else
         match r.dropWhile isDigitCh with
         | d :: _ =>
           if d = ';' then some (Char.ofNat (digitsVal ds), 2 + ds.length)
           else some (Char.ofNat (digitsVal ds), 1 + ds.length)
         | [] => some (Char.ofNat (digitsVal ds), 1 + ds.length))
    else none
  | [] => none

def entityAt (s : List Char) : Option (Char × Nat) :=
  match numericEntity s with
  | some r => some r
  | none => namedEntity s

def unescapeGo : Nat → List Char → List Char
  | 0, s => s
  | _ + 1, [] => []
  | fuel + 1, c :: rest =>
    if c = '&' then
      match entityAt rest with
      | some (e, k) => e :: unescapeGo fuel (rest.drop k)
      | none => c :: unescapeGo fuel rest
    else c :: unescapeGo fuel rest

def unescape (s : List Char) : List Char := unescapeGo s.length s

/-! ## UUID stripping

`re.sub(r'\d{6}-[a-f0-9]{8}-[a-f0-9]{4}-[a-f0-9]{4}-[a-f0-9]{4}-[a-f0-9]{12}',
'', cleaned, flags=re.IGNORECASE)` (lines 199-204).  The pattern is a fixed
43-character shape, so matching is deterministic; `re.sub` scans left to
right and restarts after each (non-overlapping) match. -/

def expectN (p : Char → Bool) : Nat → List Char → Option (List Char)
  | 0, s => some s
  | n + 1, c :: rest => if p c then expectN p n rest else none
  | _ + 1, [] => none

def expectDash : List Char → Option (List Char)
  | c :: r => if c = '-' then some r else none
  | [] => none

def matchUUID (s : List Char) : Option (List Char) :=
  (expectN isDigitCh 6 s).bind fun s1 =>
  (expectDash s1).bind fun s2 =>
  (expectN isHexCh 8 s2).bind fun s3 =>
  (expectDash s3).bind fun s4 =>
  (expectN isHexCh 4 s4).bind fun s5 =>
  (expectDash s5).bind fun s6 =>
  (expectN isHexCh 4 s6).bind fun s7 =>
  (expectDash s7).bind fun s8 =>
  (expectN isHexCh 4 s8).bind fun s9 =>
  (expectDash s9).bind fun s10 =>
  expectN isHexCh 12 s10

def removeUUIDsGo : Nat → List Char → List Char
  | 0, s => s
  | _ + 1, [] => []
  | fuel + 1, c :: rest =>
    match matchUUID (c :: rest) with
    | some s2 => removeUUIDsGo fuel s2
    | none => c :: removeUUIDsGo fuel rest

def removeUUIDs (s : List Char) : List Char := removeUUIDsGo s.length s

/-! ## The spacing / punctuation normalization (lines 214-219) -/

/-- Python `cleaned.replace('--', '-')`: one left-to-right pass over
non-overlapping occurrences. -/
def replaceDD : List Char → List Char
  | [] => []
  | [c] => [c]
  | c :: d :: rest =>
    if c = '-' ∧ d = '-' then '-' :: replaceDD rest
    else c :: replaceDD (d :: rest)

/-- `re.sub(r'\s+', ' ', cleaned)`: collapse each whitespace run to one
space (flag records whether the previous character was in a run). -/
def collapseWsGo : Bool → List Char → List Char
  | _, [] => []
  | prevWs, c :: rest =>
    if isPyWs c then
      (if prevWs then collapseWsGo true rest else ' ' :: collapseWsGo true rest)
    else c :: collapseWsGo false rest

def collapseWs (s : List Char) : List Char := collapseWsGo false s

/-- A match of `\s*-\s*` at the head of `s`: greedy whitespace, a hyphen,
greedy whitespace; returns the remainder. -/
def hyphenMatch (s : List Char) : Option (List Char) :=
  match s.dropWhile isPyWs with
  | c :: r => if c = '-' then some (r.dropWhile isPyWs) else none
  | [] => none

/-- `re.sub(r'\s*-\s*', ' - ', cleaned)`: leftmost, non-overlapping. -/
def normHyphensGo : Nat → List Char → List Char
  | 0, s => s
  | _ + 1, [] => []
  | fuel + 1, c :: rest =>
    match hyphenMatch (c :: rest) with
    | some s2 => ' ' :: '-' :: ' ' :: normHyphensGo fuel s2
    | none => c :: normHyphensGo fuel rest

def normHyphens (s : List Char) : List Char := normHyphensGo s.length s

/-- `re.sub(r'\s+(\.[^.]+)$', r'\1', cleaned)`: drop the whitespace run
sitting right before the final dot-segment (which must be non-empty and
dot-free). -/
def removeSpaceBeforeExt (s : List Char) : List Char :=
  match s.reverse.dropWhile (fun c => c ≠ '.') with
  | _ :: beforeRev =>
    if s.reverse.takeWhile (fun c => c ≠ '.') = [] then s
    else if beforeRev.takeWhile isPyWs = [] then s
    else (beforeRev.dropWhile isPyWs).reverse
      ++ '.' :: (s.reverse.takeWhile (fun c => c ≠ '.')).reverse
  | [] => s

/-! ## `os.path.splitext` (line 228)

CPython: split at the last dot provided some character before it (in the
basename; there are no path separators here) is not a dot. -/

def splitext (s : List Char) : List Char × List Char :=
  match s.reverse.dropWhile (fun c => c ≠ '.') with
  | _ :: beforeRev =>
    if beforeRev.any (fun c => c ≠ '.') then
      (beforeRev.reverse, '.' :: (s.reverse.takeWhile (fun c => c ≠ '.')).reverse)
    else (s, [])
  | [] => (s, [])

/-! ## `_sanitize_filename` (lines 191-249) -/

def windowsReservedNames : List (List Char) :=
  ["CON", "PRN", "AUX", "NUL",
   "COM1", "COM2", "COM3", "COM4", "COM5", "COM6", "COM7", "COM8", "COM9",
   "LPT1", "LPT2", "LPT3", "LPT4", "LPT5", "LPT6", "LPT7", "LPT8", "LPT9"].map String.data

def mp3Ext : List Char := ".mp3".data

/-- `f'audio_{sound_id}.mp3'`. -/
def fallbackName (soundId : List Char) : List Char :=
  "audio_".data ++ soundId ++ mp3Ext

/-- Lines 206-211: substitute the page title (or the id-based fallback) when
the string is empty or starts with a dot after stripping. -/
def fallbackStep (soundId pageTitle c2 : List Char) : List Char :=
  if pyStrip c2 = [] ∨ (pyStrip c2).head? = some '.' then
    (if pageTitle ≠ [] ∧ pyStrip pageTitle ≠ [] then pyStrip pageTitle ++ mp3Ext
     else fallbackName soundId)
  else c2

/-- Lines 213-219: underscores to spaces, `--` to `-`, collapse whitespace,
normalize hyphens, drop the space before the extension, strip. -/
def spacingStep (s : List Char) : List Char :=
  pyStrip (removeSpaceBeforeExt (normHyphens (collapseWs (replaceDD
    (s.map (fun c => if c = '_' then ' ' else c))))))

/-- Lines 221-225: invalid characters to `-`, control characters removed. -/
def charStep (s : List Char) : List Char :=
  (s.map (fun c => if isInvalid c then '-' else c)).filter (fun c => !isCtl c)

/-- The cleaned string just before the stem/extension split (line 228). -/
def preClean (raw soundId pageTitle : List Char) : List Char :=
  charStep (spacingStep (fallbackStep soundId pageTitle (removeUUIDs (unescape raw))))

/-- Lines 237-243: prefix `_` when the (upper-cased) stem is a reserved
device name, then recombine stem and extension. -/
def extReserved (name2 ext : List Char) : List Char :=
  (if pyUpper name2 ∈ windowsReservedNames then '_' :: name2 else name2) ++ ext

/-- Lines 233-235: title-case an all-lower or all-upper stem, then the
reserved-name handling. -/
def extRecombine (name1 ext : List Char) : List Char :=
  extReserved
    (if name1 ≠ [] ∧ (pyIslower name1 = true ∨ pyIsupper name1 = true) then pyTitle name1
     else name1) ext

/-- Lines 227-243: split off the extension, strip trailing dots/spaces from
the stem, title-case, handle reserved device names, recombine. -/
def extStep (s : List Char) : List Char :=
  extRecombine (rstripDotSpace (splitext s).1) (splitext s).2

/-- `_sanitize_filename(raw_filename, sound_id, page_title)`. -/
def sanitize_filename (raw soundId pageTitle : List Char) : List Char :=
  let c12 := extStep (preClean raw soundId pageTitle)
  if c12 = [] ∨ c12 = mp3Ext then fallbackName soundId else c12

/-! ## Markup extraction (lines 163-189)

The three regular expressions of `_check_downloads_enabled` and
`_parse_sound_items` are translated into backtracking scanners in
continuation-passing style: a greedy character-class star tries the longest
consumption first, a lazy `.*?` tries the shortest, and `findall` scans
left to right restarting after each non-overlapping match — the exact
search order of Python `re` for these patterns. -/

def expectLit : List Char → List Char → Option (List Char)
  | [], s => some s
  | l :: lt, c :: s => if c = l then expectLit lt s else none
  | _ :: _, [] => none

/-- Greedy `X*`-then-continuation for a character class `ok`: consume as
much as possible, backtracking one character at a time. -/
def greedyScan {α : Type} (ok : Char → Bool) (cont : List Char → Option α) :
    List Char → Option α
  | [] => cont []
  | c :: rest =>
    if ok c then
      (match greedyScan ok cont rest with
       | some a => some a
       | none => cont (c :: rest))
    else cont (c :: rest)

/-- Lazy `.*?`-then-continuation (DOTALL: any character may be consumed):
try the continuation first, else consume one character. -/
def lazyScan {α : Type} (cont : List Char → Option α) : Nat → List Char → Option α
  | 0, s => cont s
  | fuel + 1, s =>
    match cont s with
    | some a => some a
    | none =>
      match s with
      | [] => none
      | _ :: rest => lazyScan cont fuel rest

/-- Lazy `(.*?)` capture closed by a literal: the shortest prefix before
the literal, plus the remainder after it. -/
def lazyCapture (stop : List Char) : Nat → List Char → Option (List Char × List Char)
  | fuel, s =>
    match expectLit stop s with
    | some s2 => some ([], s2)
    | none =>
      match fuel, s with
      | fuel2 + 1, c :: rest =>
        (lazyCapture stop fuel2 rest).map fun p => (c :: p.1, p.2)
      | _, _ => none

/-- One match of the download-button pattern
`<a href="/sb/sound/\d+"[^>]*class="[^"]*btn-download-track`
(line 173) at the head of the input; returns the remainder after the
match. -/
def matchDownloadBtn (s : List Char) : Option (List Char) :=
  (expectLit "<a href=\"/sb/sound/".data s).bind fun s1 =>
  if s1.takeWhile isDigitCh = [] then none
  else
    (expectLit "\"".data (s1.dropWhile isDigitCh)).bind fun s2 =>
    greedyScan (fun c => c ≠ '>') (fun t =>
      (expectLit "class=\"".data t).bind fun t1 =>
      greedyScan (fun c => c ≠ '"') (fun u =>
        expectLit "btn-download-track".data u) t1) s2

/-- One match of the fallback id pattern
`<a href="/sb/sound/(\d+)"[^>]*class="btn-download-track"` (line 187):
unlike the capability pattern it requires the class attribute to be
exactly `btn-download-track`.  Returns the captured id and the
remainder. -/
def matchFallbackAnchor (s : List Char) : Option (List Char × List Char) :=
  (expectLit "<a href=\"/sb/sound/".data s).bind fun s1 =>
  if s1.takeWhile isDigitCh = [] then none
  else
    (expectLit "\"".data (s1.dropWhile isDigitCh)).bind fun s2 =>
    (greedyScan (fun c => c ≠ '>') (fun t =>
      expectLit "class=\"btn-download-track\"".data t) s2).map
      fun s3 => (s1.takeWhile isDigitCh, s3)

/-- One match of the primary sound-item pattern (line 180):
`<div class="item r"[^>]*data-src="(\d+)"[^>]*>.*?`
`<div class="item-title text-ellipsis">\s*<span>(.*?)</span>` with
`re.DOTALL`.  Returns ((id, title), remainder). -/
def matchPrimary (s : List Char) : Option ((List Char × List Char) × List Char) :=
  (expectLit "<div class=\"item r\"".data s).bind fun s1 =>
  greedyScan (fun c => c ≠ '>') (fun t =>
    (expectLit "data-src=\"".data t).bind fun t1 =>
    if t1.takeWhile isDigitCh = [] then none
    else
      (expectLit "\"".data (t1.dropWhile isDigitCh)).bind fun t2 =>
      greedyScan (fun c => c ≠ '>') (fun u =>
        (expectLit ">".data u).bind fun u1 =>
        lazyScan (fun v =>
          (expectLit "<div class=\"item-title text-ellipsis\">".data v).bind fun v1 =>
          greedyScan isPyWs (fun w =>
            (expectLit "<span>".data w).bind fun w1 =>
            (lazyCapture "</span>".data w1.length w1).map
              fun p => ((t1.takeWhile isDigitCh, p.1), p.2)) v1) u1.length u1) t2) s1

/-- `re.findall` counting scan: leftmost, non-overlapping. -/
def countMatchesGo (m : List Char → Option (List Char)) : Nat → List Char → Nat
  | 0, _ => 0
  | _ + 1, [] => 0
  | fuel + 1, c :: rest =>
    match m (c :: rest) with
    | some s2 => 1 + countMatchesGo m fuel s2
    | none => countMatchesGo m fuel rest

/-- `re.findall` collecting scan: leftmost, non-overlapping. -/
def collectMatchesGo {α : Type} (m : List Char → Option (α × List Char)) :
    Nat → List Char → List α
  | 0, _ => []
  | _ + 1, [] => []
  | fuel + 1, c :: rest =>
    match m (c :: rest) with
    | some (a, s2) => a :: collectMatchesGo m fuel s2
    | none => collectMatchesGo m fuel rest

/-- `_check_downloads_enabled` (lines 163-175). -/
def check_downloads_enabled (html : List Char) : Bool × Nat :=
  (decide (0 < countMatchesGo matchDownloadBtn html.length html),
    countMatchesGo matchDownloadBtn html.length html)

def primaryMatches (html : List Char) : List (List Char × List Char) :=
  collectMatchesGo matchPrimary html.length html

def fallbackIds (html : List Char) : List (List Char) :=
  collectMatchesGo matchFallbackAnchor html.length html

/-- `_parse_sound_items` (lines 177-189). -/
def parse_sound_items (html : List Char) : List (List Char × List Char) :=
  if primaryMatches html = [] then (fallbackIds html).map (fun sid => (sid, []))
  else primaryMatches html

/-! ## The per-board download loop (lines 349-402)

The loop is modelled as a state machine over the sequence of per-sound
outcomes.  `processed` counts the records for which a download was
attempted; the directory-cleanup attempt (lines 390-396) is recorded as a
flag (the `os.rmdir` itself is best-effort: a non-empty directory is left
in place, which is outside a pure model). -/

inductive Outcome where
  | saved (filename : List Char) (sizeKB : Nat)
  | skipped (filename : List Char)
  | failed (reason : List Char)
deriving DecidableEq

def Outcome.isFailure : Outcome → Bool
  | .failed _ => true
  | _ => false

def Outcome.isSaved : Outcome → Bool
  | .saved _ _ => true
  | _ => false

/-- `max_consecutive_failures = 2` (line 353). -/
def max_consecutive_failures : Nat := 2

structure RunState where
  processed : Nat
  snagged : Nat
  existing : Nat
  failedCount : Nat
  consecutive : Nat
  stopped : Bool
  cleanupAttempted : Bool
deriving DecidableEq

def initialRunState : RunState := ⟨0, 0, 0, 0, 0, false, false⟩

/-- One iteration of the loop body (lines 365-398). -/
def snagLoopStep (st : RunState) (o : Outcome) : RunState :=
  match o with
  | .saved _ _ =>
    { st with
      processed := st.processed + 1
      snagged := st.snagged + 1
      consecutive := 0 }
  | .skipped _ =>
    { st with
      processed := st.processed + 1
      existing := st.existing + 1
      consecutive := 0 }
  | .failed _ =>
    let st2 :=
      { st with
        processed := st.processed + 1
        failedCount := st.failedCount + 1
        consecutive := st.consecutive + 1 }
    if st2.consecutive ≥ max_consecutive_failures then
      { st2 with
        stopped := true
        cleanupAttempted := st2.snagged == 0 && st2.existing == 0 }
    else st2

def snagLoopGo : RunState → List Outcome → RunState
  | st, [] => st
  | st, o :: rest => if st.stopped then st else snagLoopGo (snagLoopStep st o) rest

def snagLoop (outcomes : List Outcome) : RunState :=
  snagLoopGo initialRunState outcomes

/-- No two adjacent Failed outcomes. -/
def noFF : List Outcome → Bool
  | o1 :: o2 :: rest => !(o1.isFailure && o2.isFailure) && noFF (o2 :: rest)
  | _ => true

/-- The number of trailing failures after folding the list. -/
def trailingFails (k : Nat) : List Outcome → Nat
  | [] => k
  | o :: rest => trailingFails (if o.isFailure then k + 1 else 0) rest

/-! ## Single-sound download (`_snag_sound`, lines 263-311) and
Content-Disposition filename extraction (lines 251-261).

The network and filesystem are modelled explicitly: a `SnagWorld` fixes
the result of the one `urlopen` call (success with a status code, a
Content-Disposition header value and an abstract body size; or one of the
three caught exception classes), the set of filenames already present in
the output directory, and whether the chunked file write raises. The
function's observable effects are returned alongside the outcome:
`requested` (the HTTP request was issued), `bodyRead` (the response body
was consumed), `wrote` (a file was created on disk). In the source,
`urlopen` is called before the existence check, so `requested` is `true`
on every path, including the skip path. -/

def sq : Char := Char.ofNat 39

/-- One quoted-filename pattern at a fixed position:
`filename="([^"]+)"` for `q = '"'` and the single-quote variant for
`q = sq`. The greedy class `[^q]+` cannot skip past a `q`, so the capture
is exactly the maximal run of non-quote characters, required non-empty and
followed by the closing quote. -/
def quotedCapture (q : Char) (s : List Char) : Option (List Char) :=
  match expectLit ("filename=".data ++ [q]) s with
  | none => none
  | some rest =>
    if rest.takeWhile (fun c => c ≠ q) = [] then none
    else
      match rest.dropWhile (fun c => c ≠ q) with
      | _ :: _ => some (rest.takeWhile (fun c => c ≠ q))
      | [] => none

/-- The bare pattern `filename=([^\s;]+)` at a fixed position (ASCII
whitespace model for `\s`). -/
def bareCapture (s : List Char) : Option (List Char) :=
  match expectLit "filename=".data s with
  | none => none
  | some rest =>
    if rest.takeWhile (fun c => !isPyWs c && !(c == ';')) = [] then none
    else some (rest.takeWhile (fun c => !isPyWs c && !(c == ';')))

/-- `re.search`: try the position matcher at each successive start
position, leftmost first. -/
def searchFirst (m : List Char → Option (List Char)) : List Char → Option (List Char)
  | [] => m []
  | c :: t =>
    match m (c :: t) with
    | some r => some r
    | none => searchFirst m t

/-- Lines 251-261: try the double-quoted, single-quoted, then bare
`filename=` patterns against the Content-Disposition header value (an
absent header is the empty string). The captures are non-empty by
construction, matching the `[^...]+` classes. -/
def extract_filename_from_headers (contentDisp : List Char) : Option (List Char) :=
  match searchFirst (quotedCapture '"') contentDisp with
  | some r => some r
  | none =>
    match searchFirst (quotedCapture sq) contentDisp with
    | some r => some r
    | none => searchFirst bareCapture contentDisp

/-- Lines 278-285: prefer the stripped page title (when non-empty after
stripping, which is exactly when `page_title and page_title.strip()` is
truthy) with `.mp3` appended; otherwise the header filename; otherwise
`audio_{sound_id}.mp3`. The source's `if not raw_filename` also covers an
empty extracted string, which the patterns cannot produce. -/
def rawFilename (pageTitle soundId contentDisp : List Char) : List Char :=
  if pyStrip pageTitle ≠ [] then pyStrip pageTitle ++ ".mp3".data
  else
    match extract_filename_from_headers contentDisp with
    | some f => f
    | none => fallbackName soundId

structure HttpResponse where
  status : Nat
  contentDisp : List Char
  sizeKB : Nat
deriving DecidableEq

inductive NetResult where
  | ok (resp : HttpResponse)
  | httpError (code : Nat) (reason : List Char)
  | urlError (reason : List Char)
  | otherExc (msg : List Char)
deriving DecidableEq

structure SnagWorld where
  net : NetResult
  fs : List (List Char)
  writeExc : Option (List Char)
deriving DecidableEq

structure SnagEffects where
  requested : Bool
  bodyRead : Bool
  wrote : Option (List Char)
deriving DecidableEq

/-- Line 300: the sanitized final filename for one sound. -/
def snagFinalName (soundId pageTitle : List Char) (resp : HttpResponse) : List Char :=
  sanitize_filename (rawFilename pageTitle soundId resp.contentDisp) soundId pageTitle

/-- Lines 263-311: `_snag_sound` as a total function of the world. The
enclosing `try` converts `HTTPError`, `URLError` and any other exception
(including a filesystem error during the chunked write) into a Failed
outcome with the formatted reason; a non-200 status is Failed; a final
filename already on disk is Skipped before the body is read; otherwise the
body is written and the outcome is Saved. `wrote` records the file created
by `open(filepath, "wb")`, which happens on both write branches. -/
def snag_sound (soundId pageTitle : List Char) (w : SnagWorld) : Outcome × SnagEffects :=
  match w.net with
  | NetResult.httpError code reason =>
    (Outcome.failed ("HTTP ".data ++ (toString code).data ++ ": ".data ++ reason),
      ⟨true, false, none⟩)
  | NetResult.urlError reason =>
    (Outcome.failed ("Network error: ".data ++ reason), ⟨true, false, none⟩)
  | NetResult.otherExc msg => (Outcome.failed msg, ⟨true, false, none⟩)
  | NetResult.ok resp =>
    if resp.status ≠ 200 then
      (Outcome.failed ("HTTP ".data ++ (toString resp.status).data), ⟨true, false, none⟩)
    else if snagFinalName soundId pageTitle resp ∈ w.fs then
      (Outcome.skipped (snagFinalName soundId pageTitle resp), ⟨true, false, none⟩)
    else
      match w.writeExc with
      | some msg =>
        (Outcome.failed msg, ⟨true, true, some (snagFinalName soundId pageTitle resp)⟩)
      | none =>
        (Outcome.saved (snagFinalName soundId pageTitle resp) resp.sizeKB,
          ⟨true, true, some (snagFinalName soundId pageTitle resp)⟩)

structure ItemEnv where
  net : NetResult
  writeExc : Option (List Char)
deriving DecidableEq

def applyWrite (fs : List (List Char)) : Option (List Char) → List (List Char)
  | some fn => fn :: fs
  | none => fs

/-- The board loop of `snag` (lines 349-402) over a list of parsed items
`((soundId, pageTitle), per-item network/write environment)`, threading
the directory contents: each processed item sees the files written so far,
and a written file is added to the directory. Returns the final counters,
the final directory contents, and the outcome sequence (cut short by the
consecutive-failure break). -/
def runBoardGo : RunState → List (List Char) →
    List ((List Char × List Char) × ItemEnv) → RunState × List (List Char) × List Outcome
  | st, fs, [] => (st, fs, [])
  | st, fs, ie :: rest =>
    if st.stopped then (st, fs, [])
    else
      ((runBoardGo
          (snagLoopStep st (snag_sound ie.1.1 ie.1.2 ⟨ie.2.net, fs, ie.2.writeExc⟩).1)
          (applyWrite fs (snag_sound ie.1.1 ie.1.2 ⟨ie.2.net, fs, ie.2.writeExc⟩).2.wrote)
          rest).1,
       (runBoardGo
          (snagLoopStep st (snag_sound ie.1.1 ie.1.2 ⟨ie.2.net, fs, ie.2.writeExc⟩).1)
          (applyWrite fs (snag_sound ie.1.1 ie.1.2 ⟨ie.2.net, fs, ie.2.writeExc⟩).2.wrote)
          rest).2.1,
       (snag_sound ie.1.1 ie.1.2 ⟨ie.2.net, fs, ie.2.writeExc⟩).1 ::
         (runBoardGo
            (snagLoopStep st (snag_sound ie.1.1 ie.1.2 ⟨ie.2.net, fs, ie.2.writeExc⟩).1)
            (applyWrite fs (snag_sound ie.1.1 ie.1.2 ⟨ie.2.net, fs, ie.2.writeExc⟩).2.wrote)
            rest).2.2)

def runBoard (items : List ((List Char × List Char) × ItemEnv))
    (fs0 : List (List Char)) : RunState × List (List Char) × List Outcome :=
  runBoardGo initialRunState fs0 items

/-! ## Views parsing in `search_boards` (lines 558-564).

`views_int = 0; if views: try: views_int = int(views.replace(',', ''))
except ValueError: views_int = 0`. Python `int` on a string accepts
optional surrounding whitespace, an optional sign, and digits separated by
single underscores; it is modelled on that documented grammar (ASCII). -/

def removeCommas (s : List Char) : List Char := s.filter (fun c => c ≠ ',')

/-- Digits, optionally separated by single underscores, continuing the
accumulated value `acc`; `none` on any other character or a misplaced
underscore. -/
def parseDigitsU (acc : Nat) : List Char → Option Nat
  | [] => some acc
  | c :: t =>
    if isDigitCh c then parseDigitsU (10 * acc + (c.toNat - 48)) t
    else if c = '_' then
      match t with
      | d :: t2 =>
        if isDigitCh d then parseDigitsU (10 * acc + (d.toNat - 48)) t2 else none
      | [] => none
    else none

/-- The stripped body of `int(s)`: an optional sign, then a non-empty
digit-and-underscore run. -/
def pyIntSigned : List Char → Option Int
  | [] => none
  | c :: t =>
    if c = '+' then
      match t with
      | d :: t2 =>
        if isDigitCh d then (parseDigitsU (d.toNat - 48) t2).map (fun n => (n : Int))
        else none
      | [] => none
    else if c = '-' then
      match t with
      | d :: t2 =>
        if isDigitCh d then (parseDigitsU (d.toNat - 48) t2).map (fun n => -(n : Int))
        else none
      | [] => none
    else if isDigitCh c then (parseDigitsU (c.toNat - 48) t).map (fun n => (n : Int))
    else none

/-- `int(s)` for a decimal string; `none` models `ValueError`. -/
def pyIntCore (s : List Char) : Option Int := pyIntSigned (pyStrip s)

/-- Lines 558-564: the parsed views integer. -/
def viewsInt (views : List Char) : Int :=
  if views = [] then 0
  else
    match pyIntCore (removeCommas views) with
    | some n => n
    | none => 0

/-! ## Search filtering in `search_boards` (lines 453-634).

Each analyzed board is summarized by its name, download-button flag,
sound count and parsed views integer. The analysis loop stops once the
count of downloadable filter-passing boards reaches `target_downloadable`;
a board passing the filters is appended to `results`; afterwards
`results` is filtered to downloadable boards (`r[1]`) and sorted by views
descending (Python's stable sort). -/

structure BoardInfo where
  name : List Char
  hasDownloads : Bool
  soundCount : Nat
  viewsInt : Int
deriving DecidableEq

/-- Lines 566-574: `meets_filters` starts `True` and is cleared when
`min_views > 0 and views_int < min_views` or
`min_sounds > 0 and sound_count < min_sounds`. -/
def meets_filters (minViews minSounds : Int) (b : BoardInfo) : Bool :=
  !((decide (0 < minViews) && decide (b.viewsInt < minViews))
    || (decide (0 < minSounds) && decide ((b.soundCount : Int) < minSounds)))

/-- Lines 499-631: the analysis loop. `dcount` is `downloadable_count`;
the check `downloadable_count >= target_downloadable` precedes each
board's analysis. Returns `(results, analyzed)`: the boards appended to
`results` and the boards analyzed before the cutoff. -/
def searchAnalyzeGo (minViews minSounds : Int) (target : Nat) :
    Nat → List BoardInfo → List BoardInfo × List BoardInfo
  | _, [] => ([], [])
  | dcount, b :: rest =>
    if target ≤ dcount then ([], [])
    else if meets_filters minViews minSounds b then
      (b :: (searchAnalyzeGo minViews minSounds target
          (if b.hasDownloads then dcount + 1 else dcount) rest).1,
       b :: (searchAnalyzeGo minViews minSounds target
          (if b.hasDownloads then dcount + 1 else dcount) rest).2)
    else
      ((searchAnalyzeGo minViews minSounds target dcount rest).1,
       b :: (searchAnalyzeGo minViews minSounds target dcount rest).2)

/-- Stable descending insertion by `viewsInt`: an earlier board precedes
later boards with equal views, matching Python's stable
`sort(key=..., reverse=True)`. -/
def insertDesc (b : BoardInfo) : List BoardInfo → List BoardInfo
  | [] => [b]
  | c :: t => if c.viewsInt ≤ b.viewsInt then b :: c :: t else c :: insertDesc b t

def sortByViewsDesc : List BoardInfo → List BoardInfo
  | [] => []
  | b :: t => insertDesc b (sortByViewsDesc t)

/-- Lines 630-634 applied to the loop's `results`: keep downloadable
boards, sort by views descending. Returns `(final results, analyzed)`. -/
def search_boards_model (minViews minSounds : Int) (target : Nat)
    (boards : List BoardInfo) : List BoardInfo × List BoardInfo :=
  (sortByViewsDesc
      ((searchAnalyzeGo minViews minSounds target 0 boards).1.filter
        (fun b => b.hasDownloads)),
   (searchAnalyzeGo minViews minSounds target 0 boards).2)

/-! ## Theorems -/

/-! ## Basic character and list lemmas -/

theorem char_eq_of_toNat {a b : Char} (h : a.toNat = b.toNat) : a = b :=
  Char.ext (UInt32.ext (by simpa [Char.toNat] using h))

theorem map_id_of {f : Char → Char} : ∀ {s : List Char}, (∀ c ∈ s, f c = c) → s.map f = s
  | [], _ => rfl
  | c :: t, h => by
    have hc : f c = c := h c (by simp)
    have ht := map_id_of (s := t) (fun x hx => h x (by simp [hx]))
    simp [hc, ht]

theorem takeWhile_append_all {p : Char → Bool} {xs : List Char} (ys : List Char)
    (h : ∀ x ∈ xs, p x = true) : (xs ++ ys).takeWhile p = xs ++ ys.takeWhile p := by
  induction xs with
  | nil => simp
  | cons a t ih =>
    have ha : p a = true := h a (by simp)
    simp only [List.cons_append, List.takeWhile_cons, ha, if_true]
    rw [ih (fun x hx => h x (by simp [hx]))]

theorem dropWhile_append_all {p : Char → Bool} {xs : List Char} (ys : List Char)
    (h : ∀ x ∈ xs, p x = true) : (xs ++ ys).dropWhile p = ys.dropWhile p := by
  induction xs with
  | nil => simp
  | cons a t ih =>
    have ha : p a = true := h a (by simp)
    simp only [List.cons_append, List.dropWhile_cons, ha, if_true]
    exact ih (fun x hx => h x (by simp [hx]))

theorem takeWhile_all_false {p : Char → Bool} {s : List Char}
    (h : ∀ c ∈ s, p c = false) : s.takeWhile p = [] := by
  cases s with
  | nil => rfl
  | cons a t => simp [List.takeWhile_cons, h a (by simp)]

theorem dropWhile_all_false {p : Char → Bool} {s : List Char}
    (h : ∀ c ∈ s, p c = false) : s.dropWhile p = s := by
  cases s with
  | nil => rfl
  | cons a t => simp [List.dropWhile_cons, h a (by simp)]

theorem mem_of_mem_dropWhile {p : Char → Bool} {s : List Char} {c : Char}
    (h : c ∈ s.dropWhile p) : c ∈ s :=
  (List.dropWhile_sublist p).mem h

/-! ## Identity lemmas for the spacing pipeline -/

theorem replaceDD_id : ∀ {s : List Char}, (∀ c ∈ s, c ≠ '-') → replaceDD s = s
  | [], _ => rfl
  | [_], _ => rfl
  | c :: d :: rest, h => by
    have hc : c ≠ '-' := h c (by simp)
    have ht := replaceDD_id (s := d :: rest) (fun x hx => h x (by simp at hx; simp [hx]))
    have hcd : ¬(c = '-' ∧ d = '-') := fun hand => hc hand.1
    simp only [replaceDD, if_neg hcd]
    rw [ht]

theorem collapseWsGo_all_nonws : ∀ {s : List Char} (b : Bool),
    (∀ c ∈ s, isPyWs c = false) → collapseWsGo b s = s
  | [], _, _ => rfl
  | c :: t, b, h => by
    have hc : isPyWs c = false := h c (by simp)
    have ht := collapseWsGo_all_nonws (s := t) false (fun x hx => h x (by simp [hx]))
    simp [collapseWsGo, hc, ht]

theorem hyphenMatch_none {s : List Char} (h : ∀ c ∈ s, c ≠ '-') : hyphenMatch s = none := by
  unfold hyphenMatch
  cases hd : s.dropWhile isPyWs with
  | nil => rfl
  | cons a t =>
    have ha : a ∈ s := mem_of_mem_dropWhile (by rw [hd]; simp)
    simp [h a ha]

theorem normHyphensGo_id : ∀ (fuel : Nat) {s : List Char},
    (∀ c ∈ s, c ≠ '-') → normHyphensGo fuel s = s
  | 0, _, _ => rfl
  | _ + 1, [], _ => rfl
  | fuel + 1, c :: t, h => by
    have ht := normHyphensGo_id fuel (s := t) (fun x hx => h x (by simp [hx]))
    simp only [normHyphensGo, hyphenMatch_none h, ht]

theorem normHyphens_id {s : List Char} (h : ∀ c ∈ s, c ≠ '-') : normHyphens s = s :=
  normHyphensGo_id s.length h

theorem dropWhile_eq_self_of_head {p : Char → Bool} : ∀ {s : List Char},
    (∀ c, s.head? = some c → p c = false) → s.dropWhile p = s
  | [], _ => rfl
  | a :: t, h => by simp [List.dropWhile_cons, h a rfl]

theorem pyStrip_id {s : List Char}
    (hh : ∀ c, s.head? = some c → isPyWs c = false)
    (ht : ∀ c, s.reverse.head? = some c → isPyWs c = false) : pyStrip s = s := by
  unfold pyStrip pyLStrip pyRStripBy
  rw [dropWhile_eq_self_of_head hh, dropWhile_eq_self_of_head ht, List.reverse_reverse]

theorem pyTitleGo_uncased : ∀ {s : List Char} (b : Bool),
    (∀ c ∈ s, isCased c = false) → pyTitleGo b s = s
  | [], _, _ => rfl
  | c :: t, b, h => by
    have hc : isCased c = false := h c (by simp)
    have ht := pyTitleGo_uncased (s := t) false (fun x hx => h x (by simp [hx]))
    simp [pyTitleGo, hc, ht]

/-! ## Character class characterizations -/

theorem isPyWs_iff {c : Char} :
    isPyWs c = true ↔ (c.toNat = 32 ∨ (9 ≤ c.toNat ∧ c.toNat ≤ 13)) := by
  simp [isPyWs, Bool.or_eq_true, Bool.and_eq_true, decide_eq_true_eq, beq_iff_eq]

theorem isDigitCh_iff {c : Char} :
    isDigitCh c = true ↔ (48 ≤ c.toNat ∧ c.toNat ≤ 57) := by
  simp [isDigitCh, Bool.and_eq_true, decide_eq_true_eq]

theorem isCased_iff {c : Char} :
    isCased c = true ↔ ((97 ≤ c.toNat ∧ c.toNat ≤ 122) ∨ (65 ≤ c.toNat ∧ c.toNat ≤ 90)) := by
  simp [isCased, isAsciiLower, isAsciiUpper, Bool.or_eq_true, Bool.and_eq_true,
    decide_eq_true_eq]

theorem isCtl_iff {c : Char} :
    isCtl c = true ↔ (c.toNat ≤ 31 ∨ c.toNat = 127) := by
  simp [isCtl, Bool.or_eq_true, decide_eq_true_eq, beq_iff_eq]

theorem isInvalid_iff {c : Char} :
    isInvalid c = true ↔ c.toNat ∈ ([60, 62, 58, 34, 47, 92, 124, 63, 42] : List Nat) := by
  constructor
  · intro h
    have hm : c ∈ invalidChars := by
      simpa [isInvalid, List.contains] using h
    fin_cases hm <;> simp
  · intro h
    have h9 : c.toNat = 60 ∨ c.toNat = 62 ∨ c.toNat = 58 ∨ c.toNat = 34 ∨ c.toNat = 47 ∨
        c.toNat = 92 ∨ c.toNat = 124 ∨ c.toNat = 63 ∨ c.toNat = 42 := by simpa using h
    rcases h9 with h | h | h | h | h | h | h | h | h
    · have hc : c = '<' := char_eq_of_toNat (by rw [h]; decide)
      rw [hc]; decide
    · have hc : c = '>' := char_eq_of_toNat (by rw [h]; decide)
      rw [hc]; decide
    · have hc : c = ':' := char_eq_of_toNat (by rw [h]; decide)
      rw [hc]; decide
    · have hc : c = '"' := char_eq_of_toNat (by rw [h]; decide)
      rw [hc]; decide
    · have hc : c = '/' := char_eq_of_toNat (by rw [h]; decide)
      rw [hc]; decide
    · have hc : c = '\\' := char_eq_of_toNat (by rw [h]; decide)
      rw [hc]; decide
    · have hc : c = '|' := char_eq_of_toNat (by rw [h]; decide)
      rw [hc]; decide
    · have hc : c = '?' := char_eq_of_toNat (by rw [h]; decide)
      rw [hc]; decide
    · have hc : c = '*' := char_eq_of_toNat (by rw [h]; decide)
      rw [hc]; decide

/-- Digit characters are inert for every step of the spacing pipeline. -/
theorem digit_char_props {c : Char} (h : isDigitCh c = true) :
    c ≠ '-' ∧ c ≠ '_' ∧ c ≠ '.' ∧ isPyWs c = false ∧ isCased c = false ∧
      isInvalid c = false ∧ isCtl c = false := by
  have hb := isDigitCh_iff.mp h
  refine ⟨?_, ?_, ?_, ?_, ?_, ?_, ?_⟩
  · intro he; subst he; exact absurd h (by decide)
  · intro he; subst he; exact absurd h (by decide)
  · intro he; subst he; exact absurd h (by decide)
  · cases hw : isPyWs c
    · rfl
    · have := isPyWs_iff.mp hw; omega
  · cases hw : isCased c
    · rfl
    · have := isCased_iff.mp hw; omega
  · cases hw : isInvalid c
    · rfl
    · have := isInvalid_iff.mp hw; simp at this; omega
  · cases hw : isCtl c
    · rfl
    · have := isCtl_iff.mp hw; omega

/-! ## Reserved-name facts -/

theorem reserved_length_le : ∀ y ∈ windowsReservedNames, y.length ≤ 4 := by decide

theorem not_reserved_of_length {x : List Char} (h : 5 ≤ x.length) :
    x ∉ windowsReservedNames := by
  intro hm
  have := reserved_length_le x hm
  omega

/-! ## Computation lemmas for strings ending in `.mp3` -/

theorem removeSpaceBeforeExt_mp3tail {s X : List Char}
    (h : s.reverse = '3' :: 'p' :: 'm' :: '.' :: X) (hX : X.takeWhile isPyWs = []) :
    removeSpaceBeforeExt s = s := by
  unfold removeSpaceBeforeExt
  rw [h]
  have e1 : List.takeWhile (fun c => c ≠ '.') ('3' :: 'p' :: 'm' :: '.' :: X)
      = ['3', 'p', 'm'] := rfl
  have e2 : List.dropWhile (fun c => c ≠ '.') ('3' :: 'p' :: 'm' :: '.' :: X)
      = '.' :: X := rfl
  simp only [e1, e2, hX]
  simp

theorem splitext_mp3tail {s X : List Char}
    (h : s.reverse = '3' :: 'p' :: 'm' :: '.' :: X) (hX : X.any (fun c => c ≠ '.') = true) :
    splitext s = (X.reverse, mp3Ext) := by
  unfold splitext
  rw [h]
  have e1 : List.takeWhile (fun c => c ≠ '.') ('3' :: 'p' :: 'm' :: '.' :: X)
      = ['3', 'p', 'm'] := rfl
  have e2 : List.dropWhile (fun c => c ≠ '.') ('3' :: 'p' :: 'm' :: '.' :: X)
      = '.' :: X := rfl
  simp only [e1, e2, hX]
  simp [mp3Ext]

/-! ## Claim C2: normalizing an empty raw string -/

theorem sanitize_empty_raw_digits {id : List Char} (hne : id ≠ [])
    (hdig : ∀ c ∈ id, isDigitCh c = true) :
    sanitize_filename [] id [] = "Audio ".data ++ id ++ ".mp3".data := by
  obtain ⟨d, t, hrev, hd⟩ : ∃ d t, id.reverse = d :: t ∧ d ∈ id := by
    cases hr : id.reverse with
    | nil => exact absurd (by simpa using congrArg List.reverse hr) hne
    | cons d t =>
      refine ⟨d, t, rfl, ?_⟩
      have : d ∈ id.reverse := by rw [hr]; simp
      simpa using this
  have hddig := digit_char_props (hdig d hd)
  -- step 3 produces the raw fallback name
  have h0 : preClean [] id [] = charStep (spacingStep (fallbackName id)) := rfl
  -- underscore replacement
  have h1 : List.map (fun c => if c = '_' then ' ' else c) (fallbackName id)
      = "audio ".data ++ id ++ mp3Ext := by
    unfold fallbackName
    rw [List.map_append, List.map_append,
      map_id_of (fun c hc => if_neg (digit_char_props (hdig c hc)).2.1)]
    rfl
  -- no hyphens anywhere
  have hnodash : ∀ c ∈ "audio ".data ++ id ++ mp3Ext, c ≠ '-' := by
    have hlit1 : ∀ x ∈ "audio ".data, x ≠ '-' := by decide
    have hlit2 : ∀ x ∈ mp3Ext, x ≠ '-' := by decide
    intro c hc
    rcases List.mem_append.mp hc with hc | hc
    · rcases List.mem_append.mp hc with hc | hc
      · exact hlit1 c hc
      · exact (digit_char_props (hdig c hc)).1
    · exact hlit2 c hc
  have h2 : replaceDD ("audio ".data ++ id ++ mp3Ext) = "audio ".data ++ id ++ mp3Ext :=
    replaceDD_id hnodash
  -- whitespace collapse: the only space is the concrete one in "audio "
  have h3 : collapseWs ("audio ".data ++ id ++ mp3Ext) = "audio ".data ++ id ++ mp3Ext := by
    have hrest : collapseWsGo true (id ++ mp3Ext) = id ++ mp3Ext :=
      collapseWsGo_all_nonws true (by
        have hlit : ∀ x ∈ mp3Ext, isPyWs x = false := by decide
        intro c hc
        rcases List.mem_append.mp hc with hc | hc
        · exact (digit_char_props (hdig c hc)).2.2.2.1
        · exact hlit c hc)
    calc collapseWs (("audio ".data ++ id) ++ mp3Ext)
        = collapseWs ("audio ".data ++ (id ++ mp3Ext)) := by rw [List.append_assoc]
      _ = "audio ".data ++ collapseWsGo true (id ++ mp3Ext) := rfl
      _ = "audio ".data ++ (id ++ mp3Ext) := by rw [hrest]
      _ = ("audio ".data ++ id) ++ mp3Ext := by rw [List.append_assoc]
  have h4 : normHyphens ("audio ".data ++ id ++ mp3Ext) = "audio ".data ++ id ++ mp3Ext :=
    normHyphens_id hnodash
  -- the reversed string starts with the reversed extension
  have hrevall : ("audio ".data ++ id ++ mp3Ext).reverse
      = '3' :: 'p' :: 'm' :: '.' :: (d :: t ++ "audio ".data.reverse) := by
    rw [List.reverse_append, List.reverse_append, hrev]
    rfl
  have h5 : removeSpaceBeforeExt ("audio ".data ++ id ++ mp3Ext)
      = "audio ".data ++ id ++ mp3Ext := by
    refine removeSpaceBeforeExt_mp3tail hrevall ?_
    simp [List.cons_append, List.takeWhile_cons, hddig.2.2.2.1]
  have h6 : pyStrip ("audio ".data ++ id ++ mp3Ext) = "audio ".data ++ id ++ mp3Ext := by
    refine pyStrip_id (fun c hc => ?_) (fun c hc => ?_)
    · have : c = 'a' := by
        have he : (("audio ".data ++ id) ++ mp3Ext).head? = some 'a' := rfl
        rw [he] at hc
        exact (Option.some.inj hc).symm
      rw [this]; decide
    · rw [hrevall] at hc
      have : c = '3' := (Option.some.inj hc).symm
      rw [this]; decide
  have hspacing : spacingStep (fallbackName id) = "audio ".data ++ id ++ mp3Ext := by
    unfold spacingStep
    rw [h1, h2, h3, h4, h5, h6]
  -- invalid chars and control chars: nothing to replace or remove
  have h7 : charStep ("audio ".data ++ id ++ mp3Ext) = "audio ".data ++ id ++ mp3Ext := by
    have hlit1 : ∀ x ∈ "audio ".data, (!isCtl x) = true := by decide
    have hlit2 : ∀ x ∈ mp3Ext, (!isCtl x) = true := by decide
    have hlit3 : ∀ x ∈ "audio ".data, (if isInvalid x = true then '-' else x) = x := by decide
    have hlit4 : ∀ x ∈ mp3Ext, (if isInvalid x = true then '-' else x) = x := by decide
    unfold charStep
    rw [map_id_of (fun c hc => ?_), List.filter_eq_self.mpr (fun c hc => ?_)]
    · rcases List.mem_append.mp hc with hc2 | hc2
      · rcases List.mem_append.mp hc2 with hc3 | hc3
        · exact hlit1 c hc3
        · simp [(digit_char_props (hdig c hc3)).2.2.2.2.2.2]
      · exact hlit2 c hc2
    · rcases List.mem_append.mp hc with hc2 | hc2
      · rcases List.mem_append.mp hc2 with hc3 | hc3
        · exact hlit3 c hc3
        · rw [if_neg]
          simp [(digit_char_props (hdig c hc3)).2.2.2.2.2.1]
      · exact hlit4 c hc2
  have hpre : preClean [] id [] = "audio ".data ++ id ++ mp3Ext := by
    rw [h0, hspacing, h7]
  -- the stem/extension step
  have hsplit : splitext ("audio ".data ++ id ++ mp3Ext)
      = ((d :: t ++ "audio ".data.reverse).reverse, mp3Ext) := by
    refine splitext_mp3tail hrevall ?_
    rw [List.cons_append, List.any_cons, List.any_append]
    have hlit : ("audio ".data.reverse).any (fun c => c ≠ '.') = true := by decide
    rw [hlit]
    simp
  have hXrev : (d :: t ++ "audio ".data.reverse).reverse = "audio ".data ++ id := by
    rw [← hrev, ← List.reverse_append, List.reverse_reverse]
  have hstem : rstripDotSpace ("audio ".data ++ id) = "audio ".data ++ id := by
    unfold rstripDotSpace pyRStripBy
    rw [List.reverse_append, hrev]
    have e : List.dropWhile (fun c => c == '.' || c == ' ')
        (d :: t ++ "audio ".data.reverse) = d :: t ++ "audio ".data.reverse := by
      rw [List.cons_append, List.dropWhile_cons]
      have hbe : (d == '.' || d == ' ') = false := by
        have h1 : (d == '.') = false := beq_eq_false_iff_ne.mpr hddig.2.2.1
        have h2 : (d == ' ') = false := by
          refine beq_eq_false_iff_ne.mpr (fun he => ?_)
          rw [he] at hddig
          exact absurd hddig.2.2.2.1 (by decide)
        rw [h1, h2]
        rfl
      rw [hbe]
      simp
    rw [e, ← hrev, ← List.reverse_append, List.reverse_reverse]
  have hlow : pyIslower ("audio ".data ++ id) = true := by
    unfold pyIslower
    rw [Bool.and_eq_true, List.any_append, List.all_append]
    refine ⟨by rw [Bool.or_eq_true]; left; decide, ?_⟩
    rw [Bool.and_eq_true]
    refine ⟨by decide, ?_⟩
    rw [List.all_eq_true]
    intro c hc
    simp [(digit_char_props (hdig c hc)).2.2.2.2.1]
  have htitle : pyTitle ("audio ".data ++ id) = "Audio ".data ++ id := by
    have hpre2 : pyTitleGo false ("audio ".data ++ id) = "Audio ".data ++ pyTitleGo false id := rfl
    rw [pyTitle, hpre2,
      pyTitleGo_uncased false (fun c hc => (digit_char_props (hdig c hc)).2.2.2.2.1)]
  have hnotres : pyUpper ("Audio ".data ++ id) ∉ windowsReservedNames := by
    refine not_reserved_of_length ?_
    rw [pyUpper, List.length_map, List.length_append]
    have h0len : 0 < id.length := List.length_pos.mpr hne
    have e1 : ("Audio ".data).length = 6 := rfl
    omega
  have hext : extStep ("audio ".data ++ id ++ mp3Ext) = ("Audio ".data ++ id) ++ mp3Ext := by
    unfold extStep
    rw [hsplit]
    show extRecombine (rstripDotSpace ((d :: t ++ "audio ".data.reverse).reverse)) mp3Ext
      = ("Audio ".data ++ id) ++ mp3Ext
    rw [hXrev, hstem]
    unfold extRecombine
    rw [if_pos ⟨by simp, Or.inl hlow⟩, htitle]
    unfold extReserved
    rw [if_neg hnotres]
  -- assemble
  unfold sanitize_filename
  rw [hpre, hext, if_neg ?_]
  · rfl
  · rintro (he | he)
    · have hlen := congrArg List.length he
      rw [List.length_append, List.length_append] at hlen
      have e1 : ("Audio ".data).length = 6 := rfl
      have e2 : mp3Ext.length = 4 := rfl
      have e3 : ([] : List Char).length = 0 := rfl
      omega
    · have hlen := congrArg List.length he
      rw [List.length_append, List.length_append] at hlen
      have e1 : ("Audio ".data).length = 6 := rfl
      have e2 : mp3Ext.length = 4 := rfl
      omega

/-! ## Claim theorems C1, C2, C4 -/

/-- Claim C1 (code bug): the Filename Normalizer is not idempotent.  The
invalid-character replacement (line 222) runs after the `--` collapsing and
hyphen normalization (lines 215-217), so `a<>b` normalizes to `A--B`, whose
re-normalization is `A - B`. -/
theorem sanitize_not_idempotent :
    sanitize_filename (sanitize_filename "a<>b".data "1".data []) "1".data []
        ≠ sanitize_filename "a<>b".data "1".data [] ∧
      sanitize_filename "a<>b".data "1".data [] = "A--B".data ∧
      sanitize_filename "A--B".data "1".data [] = "A - B".data := by
  refine ⟨?_, ?_, ?_⟩ <;> decide

/-- Claim C2 counterexample: `normalize("", "123", "")` is not
`"audio_123.mp3"` — the fallback name is itself normalized afterwards
(underscore to space, title case), yielding `"Audio 123.mp3"`. -/
theorem sanitize_empty_raw_cx :
    sanitize_filename [] "123".data [] ≠ "audio_123.mp3".data ∧
      sanitize_filename [] "123".data [] = "Audio 123.mp3".data := by
  refine ⟨?_, ?_⟩ <;> decide

/-- Claim C2 (corrected, amended): for every non-empty all-digit fallback id,
normalizing the empty string with an empty fallback title yields
`"Audio " ++ id ++ ".mp3"`: the substituted fallback name
`audio_{id}.mp3` passes through the remaining normalization steps
(underscore replacement and title-casing). -/
theorem sanitize_empty_raw_digits_main {id : List Char} (hne : id ≠ [])
    (hdig : ∀ c ∈ id, isDigitCh c = true) :
    sanitize_filename [] id [] = "Audio ".data ++ id ++ ".mp3".data :=
  sanitize_empty_raw_digits hne hdig

/-- Claim C2 witness: the amended statement evaluated at id `123`. -/
theorem sanitize_empty_raw_digits_main_witness :
    sanitize_filename [] "123".data [] = "Audio ".data ++ "123".data ++ ".mp3".data :=
  sanitize_empty_raw_digits_main (by decide) (by decide)

/-- Claim C4 counterexample: the raw string `hello` normalizes to `Hello`,
which has no (non-empty) extension at all. -/
theorem sanitize_no_extension_cx :
    sanitize_filename "hello".data "1".data [] = "Hello".data ∧
      (splitext (sanitize_filename "hello".data "1".data [])).2 = [] := by
  refine ⟨?_, ?_⟩ <;> decide

/-- Claim C4 (corrected, amended): whenever the cleaned string reaching the
stem/extension split carries the extension `.mp3`, the final filename ends
in `.mp3` — title-casing, reserved-name prefixing and the final safety
fallback all preserve it.  (Raw strings without an extension can produce
extensionless names, per the counterexample.) -/
theorem sanitize_ends_mp3_of_preclean {raw soundId pageTitle : List Char}
    (h : (splitext (preClean raw soundId pageTitle)).2 = mp3Ext) :
    ∃ stem : List Char, sanitize_filename raw soundId pageTitle = stem ++ ".mp3".data := by
  unfold sanitize_filename
  by_cases hf : extStep (preClean raw soundId pageTitle) = []
      ∨ extStep (preClean raw soundId pageTitle) = mp3Ext
  · rw [if_pos hf]
    exact ⟨"audio_".data ++ soundId, rfl⟩
  · rw [if_neg hf]
    unfold extStep extRecombine extReserved
    rw [h]
    exact ⟨_, rfl⟩

/-- Claim C4 witness: the amended statement evaluated at `hello.mp3`. -/
theorem sanitize_ends_mp3_of_preclean_witness :
    (splitext (preClean "hello.mp3".data "1".data [])).2 = mp3Ext ∧
      ∃ stem : List Char,
        sanitize_filename "hello.mp3".data "1".data [] = stem ++ ".mp3".data :=
  ⟨by decide, sanitize_ends_mp3_of_preclean (by decide)⟩

/-! ## Case-map facts -/

theorem isAsciiLower_iff {c : Char} :
    isAsciiLower c = true ↔ (97 ≤ c.toNat ∧ c.toNat ≤ 122) := by
  simp [isAsciiLower, Bool.and_eq_true, decide_eq_true_eq]

theorem isAsciiUpper_iff {c : Char} :
    isAsciiUpper c = true ↔ (65 ≤ c.toNat ∧ c.toNat ≤ 90) := by
  simp [isAsciiUpper, Bool.and_eq_true, decide_eq_true_eq]

theorem chUpper_toNat_lower {c : Char} (h : isAsciiLower c = true) :
    (chUpper c).toNat = c.toNat - 32 := by
  have hb := isAsciiLower_iff.mp h
  unfold chUpper
  rw [if_pos h, Char.ofNat, dif_pos (Or.inl (by omega))]
  rfl

theorem chUpper_id {c : Char} (h : isAsciiLower c = false) : chUpper c = c := by
  unfold chUpper
  rw [if_neg (by rw [h]; exact Bool.false_ne_true)]

theorem chLower_toNat_upper {c : Char} (h : isAsciiUpper c = true) :
    (chLower c).toNat = c.toNat + 32 := by
  have hb := isAsciiUpper_iff.mp h
  unfold chLower
  rw [if_pos h, Char.ofNat, dif_pos (Or.inl (by omega))]
  rfl

theorem chLower_id {c : Char} (h : isAsciiUpper c = false) : chLower c = c := by
  unfold chLower
  rw [if_neg (by rw [h]; exact Bool.false_ne_true)]

theorem chUpper_safe {c : Char} (h1 : isInvalid c = false) (h2 : isCtl c = false) :
    isInvalid (chUpper c) = false ∧ isCtl (chUpper c) = false := by
  cases hl : isAsciiLower c
  · rw [chUpper_id hl]; exact ⟨h1, h2⟩
  · have hb := isAsciiLower_iff.mp hl
    have ht := chUpper_toNat_lower hl
    constructor
    · cases hv : isInvalid (chUpper c)
      · rfl
      · have hw := isInvalid_iff.mp hv
        rw [ht] at hw
        simp at hw
        omega
    · cases hv : isCtl (chUpper c)
      · rfl
      · have hw := isCtl_iff.mp hv
        rw [ht] at hw
        omega

theorem chLower_safe {c : Char} (h1 : isInvalid c = false) (h2 : isCtl c = false) :
    isInvalid (chLower c) = false ∧ isCtl (chLower c) = false := by
  cases hl : isAsciiUpper c
  · rw [chLower_id hl]; exact ⟨h1, h2⟩
  · have hb := isAsciiUpper_iff.mp hl
    have ht := chLower_toNat_upper hl
    constructor
    · cases hv : isInvalid (chLower c)
      · rfl
      · have hw := isInvalid_iff.mp hv
        rw [ht] at hw
        simp at hw
        omega
    · cases hv : isCtl (chLower c)
      · rfl
      · have hw := isCtl_iff.mp hv
        rw [ht] at hw
        omega

theorem chUpper_ne_dot {c : Char} (h : c ≠ '.') : chUpper c ≠ '.' := by
  cases hl : isAsciiLower c
  · rw [chUpper_id hl]; exact h
  · have hb := isAsciiLower_iff.mp hl
    have ht := chUpper_toNat_lower hl
    intro he
    rw [he] at ht
    have : ('.').toNat = 46 := rfl
    omega

theorem chLower_ne_dot {c : Char} (h : c ≠ '.') : chLower c ≠ '.' := by
  cases hl : isAsciiUpper c
  · rw [chLower_id hl]; exact h
  · have hb := isAsciiUpper_iff.mp hl
    have ht := chLower_toNat_upper hl
    intro he
    rw [he] at ht
    have : ('.').toNat = 46 := rfl
    omega

/-! ## Structural lemmas about `splitext` and the stripping helpers -/

theorem dropWhile_head_not {p : Char → Bool} : ∀ {s : List Char} {a : Char} {t : List Char},
    s.dropWhile p = a :: t → p a = false
  | [], _, _, h => by simp at h
  | c :: r, a, t, h => by
    rw [List.dropWhile_cons] at h
    by_cases hc : p c = true
    · rw [if_pos hc] at h
      exact dropWhile_head_not h
    · rw [if_neg hc] at h
      injection h with h1 _
      subst h1
      cases hpc : p c
      · rfl
      · exact absurd hpc hc

theorem splitext_eq_cons {s : List Char} {a : Char} {X : List Char}
    (hd : s.reverse.dropWhile (fun c => c ≠ '.') = a :: X) :
    splitext s = if X.any (fun c => c ≠ '.') then
      (X.reverse, '.' :: (s.reverse.takeWhile (fun c => c ≠ '.')).reverse)
    else (s, []) := by
  unfold splitext
  rw [hd]

theorem splitext_eq_nil {s : List Char}
    (hd : s.reverse.dropWhile (fun c => c ≠ '.') = []) : splitext s = (s, []) := by
  unfold splitext
  rw [hd]

theorem splitext_recombine (s : List Char) : (splitext s).1 ++ (splitext s).2 = s := by
  cases hd : s.reverse.dropWhile (fun c => c ≠ '.') with
  | nil => rw [splitext_eq_nil hd]; simp
  | cons a X =>
    rw [splitext_eq_cons hd]
    have ha : a = '.' := by
      have h2 := dropWhile_head_not hd
      simpa using h2
    have hsplit : s.reverse.takeWhile (fun c => c ≠ '.') ++ (a :: X) = s.reverse := by
      rw [← hd]
      exact List.takeWhile_append_dropWhile (p := fun c => c ≠ '.') (l := s.reverse)
    have hs := congrArg List.reverse hsplit
    rw [List.reverse_append, List.reverse_reverse, List.reverse_cons, List.append_assoc] at hs
    by_cases hany : X.any (fun c => c ≠ '.') = true
    · rw [if_pos hany]
      simpa [ha] using hs
    · rw [if_neg hany]
      simp

theorem splitext_snd_shape (s : List Char) :
    (splitext s).2 = [] ∨
      ∃ e', (splitext s).2 = '.' :: e' ∧ ∀ c ∈ e', c ≠ '.' := by
  cases hd : s.reverse.dropWhile (fun c => c ≠ '.') with
  | nil => rw [splitext_eq_nil hd]; left; rfl
  | cons a X =>
    rw [splitext_eq_cons hd]
    by_cases hany : X.any (fun c => c ≠ '.') = true
    · rw [if_pos hany]
      right
      refine ⟨(s.reverse.takeWhile (fun c => c ≠ '.')).reverse, rfl, ?_⟩
      intro c hc
      have hc2 : c ∈ s.reverse.takeWhile (fun c => c ≠ '.') := by simpa using hc
      have := List.mem_takeWhile_imp hc2
      simpa using this
    · rw [if_neg hany]; left; rfl

theorem splitext_fst_ne {s : List Char} (h : s ≠ []) : (splitext s).1 ≠ [] := by
  cases hd : s.reverse.dropWhile (fun c => c ≠ '.') with
  | nil => rw [splitext_eq_nil hd]; exact h
  | cons a X =>
    rw [splitext_eq_cons hd]
    by_cases hany : X.any (fun c => c ≠ '.') = true
    · rw [if_pos hany]
      intro hXe
      have hX : X = [] := by simpa using congrArg List.reverse hXe
      rw [hX] at hany
      simp at hany
    · rw [if_neg hany]; exact h

theorem splitext_mem_fst {s : List Char} {c : Char} (h : c ∈ (splitext s).1) : c ∈ s := by
  rw [← splitext_recombine s]
  exact List.mem_append.mpr (Or.inl h)

theorem splitext_mem_snd {s : List Char} {c : Char} (h : c ∈ (splitext s).2) : c ∈ s := by
  rw [← splitext_recombine s]
  exact List.mem_append.mpr (Or.inr h)

theorem splitext_no_ext {D v : List Char} (hD : ∀ c ∈ D, c = '.') (hv : ∀ c ∈ v, c ≠ '.') :
    splitext (D ++ v) = (D ++ v, []) := by
  have hrev : (D ++ v).reverse = v.reverse ++ D.reverse := by rw [List.reverse_append]
  have hdw0 : (v.reverse ++ D.reverse).dropWhile (fun c => c ≠ '.')
      = D.reverse.dropWhile (fun c => c ≠ '.') :=
    dropWhile_append_all _ (fun x hx => by simpa using hv x (by simpa using hx))
  cases hDr : D.reverse.dropWhile (fun c => c ≠ '.') with
  | nil => exact splitext_eq_nil (by rw [hrev, hdw0, hDr])
  | cons a X =>
    rw [splitext_eq_cons (by rw [hrev, hdw0, hDr] : (D ++ v).reverse.dropWhile
      (fun c => c ≠ '.') = a :: X)]
    have hXsub : ∀ c ∈ a :: X, c = '.' := by
      intro c hc
      have hc2 : c ∈ D.reverse.dropWhile (fun c => c ≠ '.') := by rw [hDr]; exact hc
      exact hD c (by simpa using mem_of_mem_dropWhile hc2)
    have hany : X.any (fun c => c ≠ '.') = false := by
      rw [List.any_eq_false]
      intro x hx
      simp [hXsub x (by simp [hx])]
    rw [hany]
    simp

theorem splitext_append_ext {n e' : List Char} {d : Char} {t : List Char}
    (hrev : n.reverse = d :: t) (hd : d ≠ '.') (he : ∀ c ∈ e', c ≠ '.') :
    splitext (n ++ '.' :: e') = (n, '.' :: e') := by
  have h1 : (n ++ '.' :: e').reverse = e'.reverse ++ '.' :: n.reverse := by
    rw [List.reverse_append, List.reverse_cons, List.append_assoc]
    rfl
  have hall : ∀ x ∈ e'.reverse, (fun c => decide (c ≠ '.')) x = true :=
    fun x hx => by simpa using he x (by simpa using hx)
  have hdw : (n ++ '.' :: e').reverse.dropWhile (fun c => c ≠ '.')
      = '.' :: (d :: t) := by
    rw [h1, dropWhile_append_all _ hall, List.dropWhile_cons, hrev]
    simp
  have htw : (n ++ '.' :: e').reverse.takeWhile (fun c => c ≠ '.')
      = e'.reverse := by
    rw [h1, takeWhile_append_all _ hall, List.takeWhile_cons]
    simp
  rw [splitext_eq_cons hdw]
  have hany : (d :: t).any (fun c => c ≠ '.') = true := by
    rw [List.any_cons]
    simp [hd]
  rw [hany, htw]
  simp [← hrev]

theorem pyRStripBy_mem {p : Char → Bool} {s : List Char} {c : Char}
    (h : c ∈ pyRStripBy p s) : c ∈ s := by
  unfold pyRStripBy at h
  have h2 : c ∈ s.reverse.dropWhile p := by simpa using h
  simpa using mem_of_mem_dropWhile h2

theorem pyRStripBy_last {p : Char → Bool} (s : List Char) :
    pyRStripBy p s = [] ∨
      ∃ d t, (pyRStripBy p s).reverse = d :: t ∧ p d = false := by
  unfold pyRStripBy
  cases hd : s.reverse.dropWhile p with
  | nil => left; rfl
  | cons d t =>
    right
    exact ⟨d, t, by rw [List.reverse_reverse], dropWhile_head_not hd⟩

theorem head_shape {s : List Char} {a : Char} (h : s.head? = some a) : ∃ t, s = a :: t := by
  cases s with
  | nil => simp at h
  | cons x t => exact ⟨t, by simpa using h⟩

/-! ## `pyTitle` facts -/

theorem pyTitleGo_length : ∀ {s : List Char} (b : Bool), (pyTitleGo b s).length = s.length
  | [], _ => rfl
  | c :: t, b => by simp [pyTitleGo, pyTitleGo_length (s := t) (isCased c)]

theorem pyTitleGo_ne_nil {s : List Char} {b : Bool} (h : s ≠ []) : pyTitleGo b s ≠ [] := by
  intro he
  have hl := pyTitleGo_length (s := s) b
  rw [he] at hl
  have h0 : s.length = 0 := by simpa using hl.symm
  exact h (List.length_eq_zero.mp h0)

theorem pyTitleGo_mem : ∀ {s : List Char} (b : Bool) {c : Char}, c ∈ pyTitleGo b s →
    ∃ c₀ ∈ s, c = c₀ ∨ c = chUpper c₀ ∨ c = chLower c₀
  | [], _, c, h => by simp [pyTitleGo] at h
  | a :: t, b, c, h => by
    rw [show pyTitleGo b (a :: t)
        = (if isCased a then (if b then chLower a else chUpper a) else a)
          :: pyTitleGo (isCased a) t from rfl] at h
    rcases List.mem_cons.mp h with h | h
    · refine ⟨a, by simp, ?_⟩
      by_cases ha : isCased a = true
      · rw [if_pos ha] at h
        by_cases hb : b = true
        · rw [if_pos hb] at h
          exact Or.inr (Or.inr h)
        · rw [if_neg hb] at h
          exact Or.inr (Or.inl h)
      · rw [if_neg ha] at h
        exact Or.inl h
    · obtain ⟨c₀, hc₀, hor⟩ := pyTitleGo_mem (isCased a) h
      exact ⟨c₀, by simp [hc₀], hor⟩

theorem pyTitleGo_getLast : ∀ {s : List Char} (b : Bool) {d : Char},
    s.getLast? = some d →
    ∃ d2, (pyTitleGo b s).getLast? = some d2 ∧ (d2 = d ∨ d2 = chUpper d ∨ d2 = chLower d)
  | [], _, d, h => by simp at h
  | [a], b, d, h => by
    have had : a = d := by simpa using h
    subst had
    refine ⟨if isCased a then (if b then chLower a else chUpper a) else a, rfl, ?_⟩
    by_cases ha : isCased a = true
    · rw [if_pos ha]
      by_cases hb : b = true
      · rw [if_pos hb]; exact Or.inr (Or.inr rfl)
      · rw [if_neg hb]; exact Or.inr (Or.inl rfl)
    · rw [if_neg ha]; exact Or.inl rfl
  | a :: a2 :: t, b, d, h => by
    rw [List.getLast?_cons_cons] at h
    obtain ⟨d2, h1, h2⟩ := pyTitleGo_getLast (isCased a) (d := d) h
    refine ⟨d2, ?_, h2⟩
    rw [show pyTitleGo b (a :: a2 :: t)
        = (if isCased a then (if b then chLower a else chUpper a) else a)
          :: pyTitleGo (isCased a) (a2 :: t) from rfl]
    rw [show pyTitleGo (isCased a) (a2 :: t)
        = (if isCased a2 then (if isCased a then chLower a2 else chUpper a2) else a2)
          :: pyTitleGo (isCased a2) t from rfl] at h1 ⊢
    rw [List.getLast?_cons_cons]
    exact h1

theorem pyTitleGo_dotless {v : List Char} (b : Bool) (hv : ∀ c ∈ v, c ≠ '.') :
    ∀ c ∈ pyTitleGo b v, c ≠ '.' := by
  intro c hc
  obtain ⟨c₀, h0, hor⟩ := pyTitleGo_mem b hc
  rcases hor with h | h | h
  · rw [h]; exact hv c₀ h0
  · rw [h]; exact chUpper_ne_dot (hv c₀ h0)
  · rw [h]; exact chLower_ne_dot (hv c₀ h0)

theorem pyTitleGo_dots_structure : ∀ {D : List Char} (v : List Char) (b : Bool),
    (∀ c ∈ D, c = '.') → ∃ b2, pyTitleGo b (D ++ v) = D ++ pyTitleGo b2 v
  | [], v, b, _ => ⟨b, rfl⟩
  | a :: D', v, b, hD => by
    have ha : a = '.' := hD a (by simp)
    subst ha
    obtain ⟨b2, hb2⟩ := pyTitleGo_dots_structure (D := D') v false
      (fun c hc => hD c (by simp [hc]))
    refine ⟨b2, ?_⟩
    rw [show pyTitleGo b (('.' :: D') ++ v)
        = '.' :: pyTitleGo false (D' ++ v) from rfl]
    rw [hb2]
    rfl

/-! ## Reserved names do not contain dots or underscores -/

theorem not_reserved_of_dot {x : List Char} (h : '.' ∈ x) : x ∉ windowsReservedNames := by
  intro hm
  have hno : ∀ y ∈ windowsReservedNames, '.' ∉ y := by decide
  exact hno x hm h

theorem not_reserved_of_underscore {x : List Char} (h : '_' ∈ x) :
    x ∉ windowsReservedNames := by
  intro hm
  have hno : ∀ y ∈ windowsReservedNames, '_' ∉ y := by decide
  exact hno x hm h

theorem pyUpper_mem_dot {s : List Char} (h : '.' ∈ s) : '.' ∈ pyUpper s :=
  List.mem_map.mpr ⟨'.', h, by decide⟩

theorem pyUpper_mem_underscore {s : List Char} (h : '_' ∈ s) : '_' ∈ pyUpper s :=
  List.mem_map.mpr ⟨'_', h, by decide⟩

/-! ## Structure of strings with no extension -/

theorem no_ext_structure {s : List Char} (h : (splitext s).2 = []) :
    ∃ D w, s = D ++ w ∧ (∀ c ∈ D, c = '.') ∧ (∀ c ∈ w, c ≠ '.') := by
  cases hd : s.reverse.dropWhile (fun c => c ≠ '.') with
  | nil =>
    refine ⟨[], s, rfl, by simp, ?_⟩
    have hall := List.dropWhile_eq_nil_iff.mp hd
    intro c hc
    simpa using hall c (by simpa using hc)
  | cons a X =>
    rw [splitext_eq_cons hd] at h
    have ha : a = '.' := by simpa using dropWhile_head_not hd
    by_cases hany : X.any (fun c => c ≠ '.') = true
    · rw [if_pos hany] at h
      simp at h
    · have hXdots : ∀ c ∈ X, c = '.' := by
        intro c hc
        by_contra hne
        exact hany (List.any_eq_true.mpr ⟨c, hc, by simpa using hne⟩)
      have hsplit : s.reverse.takeWhile (fun c => c ≠ '.') ++ (a :: X) = s.reverse := by
        rw [← hd]
        exact List.takeWhile_append_dropWhile (p := fun c => c ≠ '.') (l := s.reverse)
      have hs := congrArg List.reverse hsplit
      rw [List.reverse_append, List.reverse_reverse, List.reverse_cons, List.append_assoc] at hs
      refine ⟨X.reverse ++ [a], (s.reverse.takeWhile (fun c => c ≠ '.')).reverse,
        by rw [List.append_assoc]; exact hs.symm, ?_, ?_⟩
      · intro c hc
        rcases List.mem_append.mp hc with hc | hc
        · exact hXdots c (by simpa using hc)
        · rw [ha] at hc; simpa using hc
      · intro c hc
        have hc2 : c ∈ s.reverse.takeWhile (fun c => c ≠ '.') := by simpa using hc
        simpa using List.mem_takeWhile_imp hc2

theorem rstrip_dots_structure {D w : List Char} (hD : ∀ c ∈ D, c = '.')
    (hw : ∀ c ∈ w, c ≠ '.') :
    ∃ D2 w2, rstripDotSpace (D ++ w) = D2 ++ w2 ∧ (∀ c ∈ D2, c = '.') ∧
      (∀ c ∈ w2, c ≠ '.') := by
  unfold rstripDotSpace pyRStripBy
  rw [List.reverse_append, List.dropWhile_append]
  by_cases hwe : (w.reverse.dropWhile (fun c => c == '.' || c == ' ')).isEmpty = true
  · rw [if_pos hwe]
    have hdots : D.reverse.dropWhile (fun c => c == '.' || c == ' ') = [] := by
      rw [List.dropWhile_eq_nil_iff]
      intro x hx
      have : x = '.' := hD x (by simpa using hx)
      rw [this]
      decide
    rw [hdots]
    exact ⟨[], [], rfl, by simp, by simp⟩
  · rw [if_neg hwe, List.reverse_append, List.reverse_reverse]
    refine ⟨D, (w.reverse.dropWhile (fun c => c == '.' || c == ' ')).reverse, rfl, hD, ?_⟩
    intro c hc
    have hc2 : c ∈ w.reverse.dropWhile (fun c => c == '.' || c == ' ') := by simpa using hc
    have hc3 : c ∈ w.reverse := mem_of_mem_dropWhile hc2
    exact hw c (by simpa using hc3)

/-! ## Safety of the stem/extension step -/

theorem extReserved_safe {n2 e : List Char}
    (h2 : ∀ c ∈ n2, isInvalid c = false ∧ isCtl c = false)
    (he : ∀ c ∈ e, isInvalid c = false ∧ isCtl c = false) :
    ∀ c ∈ extReserved n2 e, isInvalid c = false ∧ isCtl c = false := by
  intro c hc
  unfold extReserved at hc
  rcases List.mem_append.mp hc with hc | hc
  · by_cases hR : pyUpper n2 ∈ windowsReservedNames
    · rw [if_pos hR] at hc
      rcases List.mem_cons.mp hc with hc | hc
      · rw [hc]; exact ⟨by decide, by decide⟩
      · exact h2 c hc
    · rw [if_neg hR] at hc
      exact h2 c hc
  · exact he c hc

theorem extRecombine_safe {n1 e : List Char}
    (h1 : ∀ c ∈ n1, isInvalid c = false ∧ isCtl c = false)
    (he : ∀ c ∈ e, isInvalid c = false ∧ isCtl c = false) :
    ∀ c ∈ extRecombine n1 e, isInvalid c = false ∧ isCtl c = false := by
  unfold extRecombine
  by_cases hC : n1 ≠ [] ∧ (pyIslower n1 = true ∨ pyIsupper n1 = true)
  · rw [if_pos hC]
    refine extReserved_safe ?_ he
    intro x hx
    obtain ⟨c₀, h0, hor⟩ := pyTitleGo_mem false hx
    rcases hor with h | h | h
    · rw [h]; exact h1 c₀ h0
    · rw [h]; exact chUpper_safe (h1 c₀ h0).1 (h1 c₀ h0).2
    · rw [h]; exact chLower_safe (h1 c₀ h0).1 (h1 c₀ h0).2
  · rw [if_neg hC]
    exact extReserved_safe h1 he

/-- The last character of the (possibly title-cased) stem is a case-map of
the last character of the stripped stem, hence still not a dot. -/
theorem titled_last {n1 : List Char} :
    (n1 = [] ∨ ∃ d t, n1.reverse = d :: t ∧ d ≠ '.') →
    ∀ n2, n2 = (if n1 ≠ [] ∧ (pyIslower n1 = true ∨ pyIsupper n1 = true)
        then pyTitle n1 else n1) →
    n2 = [] ∨ ∃ d2 t2, n2.reverse = d2 :: t2 ∧ d2 ≠ '.' := by
  intro hsh n2 hn2
  rcases hsh with h1nil | ⟨d, t, hrev, hd⟩
  · left
    rw [hn2, if_neg (fun hand => hand.1 h1nil), h1nil]
  · right
    by_cases hC : n1 ≠ [] ∧ (pyIslower n1 = true ∨ pyIsupper n1 = true)
    · rw [hn2, if_pos hC]
      have hgl : n1.getLast? = some d := by
        rw [List.getLast?_eq_head?_reverse, hrev]
        rfl
      obtain ⟨d2, hgl2, hor⟩ := pyTitleGo_getLast false hgl
      have hd2 : d2 ≠ '.' := by
        rcases hor with h | h | h
        · rw [h]; exact hd
        · rw [h]; exact chUpper_ne_dot hd
        · rw [h]; exact chLower_ne_dot hd
      rw [List.getLast?_eq_head?_reverse] at hgl2
      obtain ⟨t2, ht2⟩ := head_shape hgl2
      exact ⟨d2, t2, ht2, hd2⟩
    · rw [hn2, if_neg hC]
      exact ⟨d, t, hrev, hd⟩

/-- The stem of the recombined filename, when there is a `.`-extension,
upper-cases to a non-reserved name. -/
theorem extReserved_stem_ext {n2 e' : List Char} (he' : ∀ c ∈ e', c ≠ '.')
    (h2 : n2 = [] ∨ ∃ d2 t2, n2.reverse = d2 :: t2 ∧ d2 ≠ '.') :
    pyUpper (splitext (extReserved n2 ('.' :: e'))).1 ∉ windowsReservedNames := by
  unfold extReserved
  rcases h2 with h2nil | ⟨d2, t2, hrev2, hd2⟩
  · subst h2nil
    rw [if_neg (by decide : pyUpper ([] : List Char) ∉ windowsReservedNames)]
    have hsp : splitext (([] : List Char) ++ '.' :: e') = ('.' :: e', []) := by
      have h0 := splitext_no_ext (D := ['.']) (v := e') (by simp) he'
      simpa using h0
    rw [hsp]
    exact not_reserved_of_dot (pyUpper_mem_dot (by simp))
  · by_cases hR : pyUpper n2 ∈ windowsReservedNames
    · rw [if_pos hR]
      have hrev3 : ('_' :: n2).reverse = d2 :: (t2 ++ ['_']) := by
        rw [List.reverse_cons, hrev2, List.cons_append]
      rw [splitext_append_ext hrev3 hd2 he']
      exact not_reserved_of_underscore (pyUpper_mem_underscore (by simp))
    · rw [if_neg hR]
      rw [splitext_append_ext hrev2 hd2 he']
      exact hR

theorem extRecombine_stem_ext {n1 e' : List Char} (he' : ∀ c ∈ e', c ≠ '.')
    (hsh : n1 = [] ∨ ∃ d t, n1.reverse = d :: t ∧ d ≠ '.') :
    pyUpper (splitext (extRecombine n1 ('.' :: e'))).1 ∉ windowsReservedNames := by
  unfold extRecombine
  exact extReserved_stem_ext he' (titled_last hsh _ rfl)

/-- The stem of the recombined filename upper-cases to a non-reserved name
when there is no extension and the stem is leading dots followed by a
dot-free remainder. -/
theorem extReserved_stem_noext {n2 D3 v3 : List Char}
    (hsh : n2 = D3 ++ v3) (hD3 : ∀ c ∈ D3, c = '.') (hv3 : ∀ c ∈ v3, c ≠ '.') :
    pyUpper (splitext (extReserved n2 [])).1 ∉ windowsReservedNames := by
  unfold extReserved
  rw [List.append_nil]
  by_cases hR : pyUpper n2 ∈ windowsReservedNames
  · rw [if_pos hR]
    have hne : ('_' :: n2) ≠ [] := by simp
    have hfst := splitext_fst_ne hne
    have hrec := splitext_recombine ('_' :: n2)
    obtain ⟨x, xs, hx⟩ : ∃ x xs, (splitext ('_' :: n2)).1 = x :: xs := by
      cases hh : (splitext ('_' :: n2)).1 with
      | nil => exact absurd hh hfst
      | cons x xs => exact ⟨x, xs, rfl⟩
    have hx2 : x = '_' := by
      rw [hx, List.cons_append] at hrec
      injection hrec with h1 _
    refine not_reserved_of_underscore (pyUpper_mem_underscore ?_)
    rw [hx, hx2]
    simp
  · rw [if_neg hR]
    rw [hsh, splitext_no_ext hD3 hv3, ← hsh]
    exact hR

theorem extRecombine_stem_noext {n1 D2 w2 : List Char}
    (hsh : n1 = D2 ++ w2) (hD2 : ∀ c ∈ D2, c = '.') (hw2 : ∀ c ∈ w2, c ≠ '.') :
    pyUpper (splitext (extRecombine n1 [])).1 ∉ windowsReservedNames := by
  unfold extRecombine
  by_cases hC : n1 ≠ [] ∧ (pyIslower n1 = true ∨ pyIsupper n1 = true)
  · rw [if_pos hC]
    obtain ⟨b2, hb2⟩ := pyTitleGo_dots_structure (D := D2) w2 false hD2
    have hsh2 : pyTitle n1 = D2 ++ pyTitleGo b2 w2 := by rw [pyTitle, hsh, hb2]
    exact extReserved_stem_noext hsh2 hD2 (pyTitleGo_dotless b2 hw2)
  · rw [if_neg hC]
    exact extReserved_stem_noext hsh hD2 hw2

theorem rstripDotSpace_last (s : List Char) :
    rstripDotSpace s = [] ∨ ∃ d t, (rstripDotSpace s).reverse = d :: t ∧ d ≠ '.' := by
  rcases pyRStripBy_last (p := fun c => c == '.' || c == ' ') s with h | ⟨d, t, h1, h2⟩
  · left; exact h
  · right
    refine ⟨d, t, h1, fun he => ?_⟩
    rw [he] at h2
    exact absurd h2 (by decide)

/-- The stem of the whole `extStep` output never upper-cases to a reserved
device name. -/
theorem extStep_stem (z : List Char) :
    pyUpper (splitext (extStep z)).1 ∉ windowsReservedNames := by
  rcases splitext_snd_shape z with heq | ⟨e', heq, he'⟩
  · have hn0 : (splitext z).1 = z := by
      have h0 := splitext_recombine z
      rw [heq, List.append_nil] at h0
      exact h0
    obtain ⟨D, w, hzw, hD, hw⟩ := no_ext_structure heq
    obtain ⟨D2, w2, hr, hD2, hw2⟩ := rstrip_dots_structure hD hw
    unfold extStep
    rw [heq, hn0, hzw]
    exact extRecombine_stem_noext hr hD2 hw2
  · unfold extStep
    rw [heq]
    exact extRecombine_stem_ext he' (rstripDotSpace_last _)

theorem extStep_safe {z : List Char}
    (hz : ∀ c ∈ z, isInvalid c = false ∧ isCtl c = false) :
    ∀ c ∈ extStep z, isInvalid c = false ∧ isCtl c = false := by
  unfold extStep
  refine extRecombine_safe ?_ ?_
  · intro c hc
    exact hz c (splitext_mem_fst (pyRStripBy_mem hc))
  · intro c hc
    exact hz c (splitext_mem_snd hc)

/-! ## The fallback name -/

theorem fallbackName_safe {soundId : List Char}
    (hid : ∀ c ∈ soundId, isInvalid c = false ∧ isCtl c = false) :
    ∀ c ∈ fallbackName soundId, isInvalid c = false ∧ isCtl c = false := by
  have hlit1 : ∀ x ∈ "audio_".data, isInvalid x = false ∧ isCtl x = false := by decide
  have hlit2 : ∀ x ∈ mp3Ext, isInvalid x = false ∧ isCtl x = false := by decide
  intro c hc
  unfold fallbackName at hc
  rcases List.mem_append.mp hc with hc | hc
  · rcases List.mem_append.mp hc with hc | hc
    · exact hlit1 c hc
    · exact hid c hc
  · exact hlit2 c hc

theorem fallbackName_stem (soundId : List Char) :
    pyUpper (splitext (fallbackName soundId)).1 ∉ windowsReservedNames := by
  have hrevf : (fallbackName soundId).reverse
      = '3' :: 'p' :: 'm' :: '.' :: (soundId.reverse ++ "audio_".data.reverse) := by
    unfold fallbackName
    rw [List.reverse_append, List.reverse_append]
    rfl
  have hsp := splitext_mp3tail hrevf (by
    rw [List.any_append]
    have hlit : ("audio_".data.reverse).any (fun c => c ≠ '.') = true := by decide
    rw [hlit]
    simp)
  rw [hsp]
  refine not_reserved_of_length ?_
  show 5 ≤ (pyUpper ((soundId.reverse ++ "audio_".data.reverse).reverse)).length
  rw [pyUpper, List.length_map, List.length_reverse, List.length_append,
    List.length_reverse, List.length_reverse]
  have e1 : ("audio_".data).length = 6 := rfl
  omega

/-! ## Claim C5 -/

/-- Claim C5 counterexample: with a fallback id containing `<`, the final
safety fallback emits `audio_<.mp3` verbatim, which contains an invalid
character. -/
theorem sanitize_unsafe_id_cx :
    sanitize_filename [Char.ofNat 1] "<".data [] = "audio_<.mp3".data ∧
      ¬(∀ c ∈ sanitize_filename [Char.ofNat 1] "<".data [],
          isInvalid c = false) := by
  refine ⟨by decide, by decide⟩

/-- Claim C5 (corrected, amended): for every raw string and page title, and
every fallback id free of invalid and control characters (the site's ids
are numeric), the normalized filename contains no character from
`<>:"/\\|?*`, no control character, and its extension-stripped stem never
upper-cases to a reserved device name.  (The id hypothesis is needed
because the final safety fallback emits `audio_{id}.mp3` verbatim, per the
counterexample.) -/
theorem sanitize_safe {raw soundId pageTitle : List Char}
    (hid : ∀ c ∈ soundId, isInvalid c = false ∧ isCtl c = false) :
    (∀ c ∈ sanitize_filename raw soundId pageTitle,
        isInvalid c = false ∧ isCtl c = false) ∧
      pyUpper (splitext (sanitize_filename raw soundId pageTitle)).1
        ∉ windowsReservedNames := by
  have hzsafe : ∀ c ∈ preClean raw soundId pageTitle,
      isInvalid c = false ∧ isCtl c = false := by
    intro c hc
    unfold preClean charStep at hc
    have hc2 := List.mem_filter.mp hc
    obtain ⟨c₀, _, hc₀⟩ := List.mem_map.mp hc2.1
    constructor
    · by_cases hi : isInvalid c₀ = true
      · rw [if_pos hi] at hc₀
        rw [← hc₀]
        decide
      · rw [if_neg hi] at hc₀
        rw [← hc₀]
        cases hbb : isInvalid c₀
        · rfl
        · exact absurd hbb hi
    · have hp := hc2.2
      simpa using hp
  unfold sanitize_filename
  by_cases hcase : extStep (preClean raw soundId pageTitle) = []
      ∨ extStep (preClean raw soundId pageTitle) = mp3Ext
  · rw [if_pos hcase]
    exact ⟨fallbackName_safe hid, fallbackName_stem soundId⟩
  · rw [if_neg hcase]
    exact ⟨extStep_safe hzsafe, extStep_stem _⟩

/-- Claim C5 witness: the amended statement evaluated at a concrete input
with a numeric id. -/
theorem sanitize_safe_witness :
    (∀ c ∈ sanitize_filename "con<|>.mp3".data "123".data [],
        isInvalid c = false ∧ isCtl c = false) ∧
      pyUpper (splitext (sanitize_filename "con<|>.mp3".data "123".data [])).1
        ∉ windowsReservedNames :=
  sanitize_safe (by decide)

/-! ## Claim C3 -/

/-- Claim C3 counterexample: one download-button anchor whose class
attribute carries an extra class (`class="x btn-download-track"`).  The
capability pattern counts it (its `[^"]*` allows class prefixes), the
primary pattern has zero matches, yet `_parse_sound_items` returns zero
records because the fallback pattern requires the class attribute to be
exactly `btn-download-track`. -/
theorem extract_fallback_count_cx :
    (check_downloads_enabled
        "<a href=\"/sb/sound/123\" class=\"x btn-download-track\">".data).2 = 1 ∧
      primaryMatches
        "<a href=\"/sb/sound/123\" class=\"x btn-download-track\">".data = [] ∧
      parse_sound_items
        "<a href=\"/sb/sound/123\" class=\"x btn-download-track\">".data = [] := by
  refine ⟨?_, ?_, ?_⟩ <;> decide

/-- Claim C3 (corrected, amended): when the primary pattern has zero
matches, `extractSoundRecords` returns one record per anchor matching the
stricter fallback pattern (class attribute exactly `btn-download-track`),
each with an empty title — a count that can be smaller than the
download-capability count, which also accepts anchors with additional
classes. -/
theorem extract_fallback_records {html : List Char}
    (h : primaryMatches html = []) :
    parse_sound_items html = (fallbackIds html).map (fun sid => (sid, [])) ∧
      (parse_sound_items html).length = (fallbackIds html).length ∧
      ∀ r ∈ parse_sound_items html, r.2 = ([] : List Char) := by
  unfold parse_sound_items
  rw [if_pos h]
  refine ⟨rfl, by rw [List.length_map], ?_⟩
  intro r hr
  obtain ⟨sid, _, he⟩ := List.mem_map.mp hr
  rw [← he]

/-- Claim C3 witness: a document with two exact fallback anchors. -/
theorem extract_fallback_records_witness :
    primaryMatches ("<a href=\"/sb/sound/7\" class=\"btn-download-track\">"
        ++ "<a href=\"/sb/sound/88\" class=\"btn-download-track\">").data = [] ∧
      (parse_sound_items ("<a href=\"/sb/sound/7\" class=\"btn-download-track\">"
        ++ "<a href=\"/sb/sound/88\" class=\"btn-download-track\">").data).length
        = (fallbackIds ("<a href=\"/sb/sound/7\" class=\"btn-download-track\">"
        ++ "<a href=\"/sb/sound/88\" class=\"btn-download-track\">").data).length :=
  ⟨by decide, (extract_fallback_records (by decide)).2.1⟩

theorem snagLoopGo_stopped {l : List Outcome} {st : RunState} (h : st.stopped = true) :
    snagLoopGo st l = st := by
  cases l with
  | nil => rfl
  | cons o rest => simp [snagLoopGo, h]

theorem snagLoopGo_append (l1 l2 : List Outcome) : ∀ (st : RunState),
    snagLoopGo st (l1 ++ l2) = snagLoopGo (snagLoopGo st l1) l2 := by
  induction l1 with
  | nil => intro st; rfl
  | cons o rest ih =>
    intro st
    by_cases h : st.stopped = true
    · rw [List.cons_append, snagLoopGo_stopped h,
        show snagLoopGo st (o :: rest) = st from snagLoopGo_stopped h,
        snagLoopGo_stopped h]
    · have h2 : st.stopped = false := by
        cases hb : st.stopped
        · rfl
        · exact absurd hb h
      rw [List.cons_append]
      show (if st.stopped then st else snagLoopGo (snagLoopStep st o) (rest ++ l2))
        = snagLoopGo (snagLoopGo st (o :: rest)) l2
      rw [show snagLoopGo st (o :: rest)
          = if st.stopped then st else snagLoopGo (snagLoopStep st o) rest from rfl]
      rw [h2]
      simp only [if_false, Bool.false_eq_true]
      exact ih (snagLoopStep st o)

theorem snagLoopStep_keeps {st : RunState} {o : Outcome} (h : o.isFailure = false) :
    (snagLoopStep st o).stopped = st.stopped ∧ (snagLoopStep st o).consecutive = 0 ∧
      (snagLoopStep st o).processed = st.processed + 1 := by
  cases o with
  | saved fn sz => exact ⟨rfl, rfl, rfl⟩
  | skipped fn => exact ⟨rfl, rfl, rfl⟩
  | failed r => simp [Outcome.isFailure] at h

/-- Running the loop over a list with no adjacent failures from a state
with at most one pending consecutive failure (and, when one is pending,
a non-failing head) processes everything, never stops, and leaves the
trailing-failure count. -/
theorem snagLoopGo_noFF : ∀ (l : List Outcome) (st : RunState),
    st.stopped = false → st.consecutive ≤ 1 →
    (st.consecutive = 1 → ∀ o ∈ l.head?, o.isFailure = false) →
    noFF l = true →
    (snagLoopGo st l).processed = st.processed + l.length ∧
      (snagLoopGo st l).stopped = false ∧
      (snagLoopGo st l).consecutive = trailingFails st.consecutive l ∧
      (snagLoopGo st l).snagged = st.snagged + (l.filter Outcome.isSaved).length
  | [], st, hst, _, _, _ => by simp [snagLoopGo, trailingFails, hst]
  | o :: rest, st, hst, hc1, hch, hff => by
    have hff2 : noFF rest = true := by
      cases rest with
      | nil => rfl
      | cons r2 rs =>
        unfold noFF at hff
        rw [Bool.and_eq_true] at hff
        exact hff.2
    rw [show snagLoopGo st (o :: rest)
        = if st.stopped then st else snagLoopGo (snagLoopStep st o) rest from rfl, hst]
    simp only [if_false, Bool.false_eq_true]
    cases ho : o.isFailure
    · obtain ⟨hs1, hs2, hs3⟩ := @snagLoopStep_keeps st o ho
      have hrest := snagLoopGo_noFF rest (snagLoopStep st o)
        (by rw [hs1]; exact hst) (by rw [hs2]; omega) (by rw [hs2]; omega) hff2
      refine ⟨?_, hrest.2.1, ?_, ?_⟩
      · rw [hrest.1, hs3, List.length_cons]; omega
      · rw [hrest.2.2.1, hs2]
        show _ = trailingFails (if o.isFailure then st.consecutive + 1 else 0) rest
        rw [ho]
        simp
      · rw [hrest.2.2.2, List.filter_cons]
        cases o with
        | saved fn sz =>
          have hsn : (snagLoopStep st (Outcome.saved fn sz)).snagged = st.snagged + 1 := rfl
          rw [hsn]
          simp [Outcome.isSaved]
          omega
        | skipped fn =>
          have hsn : (snagLoopStep st (Outcome.skipped fn)).snagged = st.snagged := rfl
          rw [hsn]
          simp [Outcome.isSaved]
        | failed r => simp [Outcome.isFailure] at ho
    · -- o is a failure; the pending count must be zero
      have hc0 : st.consecutive = 0 := by
        rcases Nat.lt_or_ge st.consecutive 1 with h | h
        · omega
        · have h1 : st.consecutive = 1 := by omega
          have h2 := hch h1 o (by simp)
          rw [ho] at h2
          exact absurd h2 (by simp)
      obtain ⟨r, hr⟩ : ∃ r, o = Outcome.failed r := by
        cases o with
        | saved fn sz => simp [Outcome.isFailure] at ho
        | skipped fn => simp [Outcome.isFailure] at ho
        | failed r => exact ⟨r, rfl⟩
      subst hr
      have hstep : snagLoopStep st (Outcome.failed r)
          = { st with
              processed := st.processed + 1
              failedCount := st.failedCount + 1
              consecutive := 1 } := by
        unfold snagLoopStep
        rw [hc0]
        simp [max_consecutive_failures]
      rw [hstep]
      have hhead : ∀ o2 ∈ rest.head?, o2.isFailure = false := by
        intro o2 ho2
        cases rest with
        | nil => simp at ho2
        | cons r2 rs =>
          unfold noFF at hff
          rw [Bool.and_eq_true] at hff
          have h3 := hff.1
          simp only [List.head?_cons, Option.mem_def, Option.some.injEq] at ho2
          rw [← ho2]
          rw [show (Outcome.failed r).isFailure = true from rfl] at h3
          simpa using h3
      have hrest := snagLoopGo_noFF rest
        { st with
          processed := st.processed + 1
          failedCount := st.failedCount + 1
          consecutive := 1 }
        hst (by show (1 : Nat) ≤ 1; exact Nat.le_refl 1) (fun _ => hhead) hff2
      refine ⟨?_, hrest.2.1, ?_, ?_⟩
      · rw [hrest.1, List.length_cons]
        show st.processed + 1 + rest.length = st.processed + (rest.length + 1)
        omega
      · rw [hrest.2.2.1]
        show _ = trailingFails (if (Outcome.failed r).isFailure then st.consecutive + 1 else 0) rest
        rw [show (Outcome.failed r).isFailure = true from rfl, hc0]
        simp
      · rw [hrest.2.2.2, List.filter_cons]
        simp [Outcome.isSaved]

theorem noFF_tail {o : Outcome} {t : List Outcome} (h : noFF (o :: t) = true) :
    noFF t = true := by
  cases t with
  | nil => rfl
  | cons b rest =>
    unfold noFF at h
    rw [Bool.and_eq_true] at h
    exact h.2

theorem noFF_front : ∀ {l l' : List Outcome}, noFF (l ++ l') = true → noFF l = true
  | [], _, _ => rfl
  | [_], _, _ => rfl
  | a :: b :: t, l', h => by
    rw [List.cons_append, List.cons_append] at h
    unfold noFF at h
    rw [Bool.and_eq_true] at h
    have h2 : noFF (b :: t) = true := @noFF_front (b :: t) l' (by
      rw [List.cons_append]
      exact h.2)
    unfold noFF
    rw [Bool.and_eq_true]
    exact ⟨h.1, h2⟩

theorem trailingFails_snoc : ∀ (pre : List Outcome) (x : Outcome) (k : Nat),
    trailingFails k (pre ++ [x]) = (if x.isFailure then trailingFails k pre + 1 else 0)
  | [], x, k => by
    show trailingFails (if x.isFailure then k + 1 else 0) [] = _
    cases h : x.isFailure <;> simp [trailingFails, h]
  | a :: t, x, k => by
    show trailingFails (if a.isFailure then k + 1 else 0) (t ++ [x]) = _
    rw [trailingFails_snoc t x]
    rfl

theorem noFF_last_pair : ∀ {pre : List Outcome} {y x : Outcome},
    noFF ((pre ++ [y]) ++ [x]) = true → ¬(y.isFailure = true ∧ x.isFailure = true)
  | [], y, x, h => by
    have h2 : noFF (y :: x :: []) = true := h
    unfold noFF at h2
    rw [Bool.and_eq_true] at h2
    intro hc
    rw [hc.1, hc.2] at h2
    simp at h2
  | a :: t, y, x, h => by
    refine @noFF_last_pair t y x ?_
    rw [List.cons_append, List.cons_append] at h
    exact noFF_tail h

/-- A list whose final element precedes a failure without forming a pair
has no trailing failure run. -/
theorem trailingFails_zero {pre : List Outcome} {r1 : List Char}
    (h : noFF (pre ++ [Outcome.failed r1]) = true) : trailingFails 0 pre = 0 := by
  cases hpre : pre.reverse with
  | nil =>
    have : pre = [] := by simpa using congrArg List.reverse hpre
    rw [this]
    rfl
  | cons y t =>
    have hdecomp : pre = t.reverse ++ [y] := by
      have := congrArg List.reverse hpre
      rw [List.reverse_reverse] at this
      rw [this, List.reverse_cons]
    rw [hdecomp] at h
    have hy := noFF_last_pair h
    have hyf : y.isFailure = false := by
      cases hb : y.isFailure
      · rfl
      · exact absurd ⟨hb, rfl⟩ hy
    rw [hdecomp, trailingFails_snoc, hyf]
    simp

theorem snagLoop_stops_at_ff {pre : List Outcome} {r1 r2 : List Char}
    (post : List Outcome) (hpre : noFF (pre ++ [Outcome.failed r1]) = true) :
    (snagLoop (pre ++ Outcome.failed r1 :: Outcome.failed r2 :: post)).processed
        = pre.length + 2 ∧
      (snagLoop (pre ++ Outcome.failed r1 :: Outcome.failed r2 :: post)).stopped = true := by
  have hnoFFpre : noFF pre = true := noFF_front hpre
  have hA := snagLoopGo_noFF pre initialRunState rfl (by show (0 : Nat) ≤ 1; omega)
    (fun h => by simp [initialRunState] at h) hnoFFpre
  have hAc : (snagLoopGo initialRunState pre).consecutive = 0 := by
    rw [hA.2.2.1]
    show trailingFails 0 pre = 0
    exact trailingFails_zero hpre
  rw [snagLoop, snagLoopGo_append]
  have hB : snagLoopGo (snagLoopGo initialRunState pre)
      (Outcome.failed r1 :: Outcome.failed r2 :: post)
      = snagLoopGo (snagLoopStep (snagLoopGo initialRunState pre) (Outcome.failed r1))
        (Outcome.failed r2 :: post) := by
    rw [show ∀ st l, snagLoopGo st (Outcome.failed r1 :: l)
        = if st.stopped then st else snagLoopGo (snagLoopStep st (Outcome.failed r1)) l
      from fun _ _ => rfl, hA.2.1]
    simp
  rw [hB]
  have hstep1 : snagLoopStep (snagLoopGo initialRunState pre) (Outcome.failed r1)
      = { snagLoopGo initialRunState pre with
          processed := (snagLoopGo initialRunState pre).processed + 1
          failedCount := (snagLoopGo initialRunState pre).failedCount + 1
          consecutive := 1 } := by
    unfold snagLoopStep
    rw [hAc]
    simp [max_consecutive_failures]
  rw [hstep1]
  rw [show ∀ st l, snagLoopGo st (Outcome.failed r2 :: l)
      = if st.stopped then st else snagLoopGo (snagLoopStep st (Outcome.failed r2)) l
    from fun _ _ => rfl]
  rw [show ({ snagLoopGo initialRunState pre with
      processed := (snagLoopGo initialRunState pre).processed + 1
      failedCount := (snagLoopGo initialRunState pre).failedCount + 1
      consecutive := 1 } : RunState).stopped = (snagLoopGo initialRunState pre).stopped
    from rfl, hA.2.1]
  simp only [if_false, Bool.false_eq_true]
  have hstep2 : ∀ st : RunState, st.consecutive = 1 →
      snagLoopStep st (Outcome.failed r2)
      = { st with
          processed := st.processed + 1
          failedCount := st.failedCount + 1
          consecutive := 2
          stopped := true
          cleanupAttempted := st.snagged == 0 && st.existing == 0 } := by
    intro st hc
    unfold snagLoopStep
    rw [hc]
    simp [max_consecutive_failures]
  rw [hstep2 _ rfl]
  rw [snagLoopGo_stopped rfl]
  refine ⟨?_, rfl⟩
  show (snagLoopGo initialRunState pre).processed + 1 + 1 = pre.length + 2
  rw [hA.1]
  show 0 + pre.length + 1 + 1 = pre.length + 2
  omega

theorem snagLoopGo_cleanup : ∀ (l : List Outcome) (st : RunState),
    st.stopped = false → (snagLoopGo st l).stopped = true →
    (snagLoopGo st l).cleanupAttempted
      = ((snagLoopGo st l).snagged == 0 && (snagLoopGo st l).existing == 0)
  | [], st, h0, h1 => by
    rw [show snagLoopGo st [] = st from rfl] at h1
    rw [h0] at h1
    simp at h1
  | o :: rest, st, h0, h1 => by
    rw [show snagLoopGo st (o :: rest)
        = if st.stopped then st else snagLoopGo (snagLoopStep st o) rest from rfl, h0] at h1 ⊢
    simp only [if_false, Bool.false_eq_true] at h1 ⊢
    by_cases h2 : (snagLoopStep st o).stopped = true
    · rw [snagLoopGo_stopped h2] at h1 ⊢
      cases o with
      | saved fn sz =>
        rw [show (snagLoopStep st (Outcome.saved fn sz)).stopped = st.stopped from rfl, h0] at h2
        simp at h2
      | skipped fn =>
        rw [show (snagLoopStep st (Outcome.skipped fn)).stopped = st.stopped from rfl, h0] at h2
        simp at h2
      | failed r =>
        unfold snagLoopStep at h2 ⊢
        by_cases h3 : st.consecutive + 1 ≥ max_consecutive_failures
        · rw [if_pos h3]
        · rw [if_neg h3] at h2
          rw [show ({ st with
              processed := st.processed + 1
              failedCount := st.failedCount + 1
              consecutive := st.consecutive + 1 } : RunState).stopped = st.stopped
            from rfl, h0] at h2
          simp at h2
    · have h2f : (snagLoopStep st o).stopped = false := by
        cases hb : (snagLoopStep st o).stopped
        · rfl
        · exact absurd hb h2
      exact snagLoopGo_cleanup rest (snagLoopStep st o) h2f h1

/-- Claim C6 (confirmed): with a cutoff of 2, the loop stops right after
the first two immediately consecutive Failed outcomes (any Saved or
Skipped resets the consecutive-failure counter), never processing a later
record; on the sequence [Failed, Failed, Saved, Failed] it processes
exactly 2 records; and when it stops, a directory-cleanup attempt is made
exactly when no Saved and no Skipped outcome was produced. -/
theorem snag_loop_cutoff :
    (∀ (pre post : List Outcome) (r1 r2 : List Char),
      noFF (pre ++ [Outcome.failed r1]) = true →
      (snagLoop (pre ++ Outcome.failed r1 :: Outcome.failed r2 :: post)).processed
          = pre.length + 2 ∧
        (snagLoop (pre ++ Outcome.failed r1 :: Outcome.failed r2 :: post)).stopped = true) ∧
    (∀ l, noFF l = true →
      (snagLoop l).processed = l.length ∧ (snagLoop l).stopped = false) ∧
    (∀ st fn sz, (snagLoopStep st (Outcome.saved fn sz)).consecutive = 0) ∧
    (∀ st fn, (snagLoopStep st (Outcome.skipped fn)).consecutive = 0) ∧
    (∀ l, (snagLoop l).stopped = true →
      (snagLoop l).cleanupAttempted
        = ((snagLoop l).snagged == 0 && (snagLoop l).existing == 0)) ∧
    (snagLoop [Outcome.failed [], Outcome.failed [],
        Outcome.saved [] 1, Outcome.failed []]).processed = 2 ∧
    (snagLoop [Outcome.failed [], Outcome.failed [],
        Outcome.saved [] 1, Outcome.failed []]).stopped = true ∧
    (snagLoop [Outcome.failed [], Outcome.failed [],
        Outcome.saved [] 1, Outcome.failed []]).cleanupAttempted = true := by
  refine ⟨?_, ?_, ?_, ?_, ?_, ?_, ?_, ?_⟩
  · intro pre post r1 r2 hpre
    exact snagLoop_stops_at_ff post hpre
  · intro l hl
    have h := snagLoopGo_noFF l initialRunState rfl (by show (0 : Nat) ≤ 1; omega)
      (fun h => by simp [initialRunState] at h) hl
    refine ⟨?_, h.2.1⟩
    show (snagLoopGo initialRunState l).processed = l.length
    rw [h.1]
    show 0 + l.length = l.length
    omega
  · intro st fn sz; rfl
  · intro st fn; rfl
  · intro l hl
    exact snagLoopGo_cleanup l initialRunState rfl hl
  · decide
  · decide
  · decide

/-- Claim C6 witness: the cutoff statement instantiated on a sequence in
which an intermediate Saved resets the counter. -/
theorem snag_loop_cutoff_witness :
    (snagLoop ([Outcome.failed "a".data, Outcome.saved "s".data 1]
        ++ Outcome.failed "b".data :: Outcome.failed "c".data
          :: [Outcome.saved "d".data 2])).processed
      = [Outcome.failed "a".data, Outcome.saved "s".data 1].length + 2 ∧
    (snagLoop ([Outcome.failed "a".data, Outcome.saved "s".data 1]
        ++ Outcome.failed "b".data :: Outcome.failed "c".data
          :: [Outcome.saved "d".data 2])).stopped = true :=
  snag_loop_cutoff.1 [Outcome.failed "a".data, Outcome.saved "s".data 1]
    [Outcome.saved "d".data 2] "b".data "c".data (by decide)

theorem runBoardGo_cons_eq {st : RunState} {fs : List (List Char)}
    {ie : (List Char × List Char) × ItemEnv}
    {rest : List ((List Char × List Char) × ItemEnv)} {o : Outcome} {eff : SnagEffects}
    (h0 : st.stopped = false)
    (h : snag_sound ie.1.1 ie.1.2 ⟨ie.2.net, fs, ie.2.writeExc⟩ = (o, eff)) :
    runBoardGo st fs (ie :: rest)
      = ((runBoardGo (snagLoopStep st o) (applyWrite fs eff.wrote) rest).1,
         (runBoardGo (snagLoopStep st o) (applyWrite fs eff.wrote) rest).2.1,
         o :: (runBoardGo (snagLoopStep st o) (applyWrite fs eff.wrote) rest).2.2) := by
  have hu : runBoardGo st fs (ie :: rest)
      = if st.stopped = true then (st, fs, [])
        else
          ((runBoardGo
              (snagLoopStep st (snag_sound ie.1.1 ie.1.2 ⟨ie.2.net, fs, ie.2.writeExc⟩).1)
              (applyWrite fs
                (snag_sound ie.1.1 ie.1.2 ⟨ie.2.net, fs, ie.2.writeExc⟩).2.wrote)
              rest).1,
           (runBoardGo
              (snagLoopStep st (snag_sound ie.1.1 ie.1.2 ⟨ie.2.net, fs, ie.2.writeExc⟩).1)
              (applyWrite fs
                (snag_sound ie.1.1 ie.1.2 ⟨ie.2.net, fs, ie.2.writeExc⟩).2.wrote)
              rest).2.1,
           (snag_sound ie.1.1 ie.1.2 ⟨ie.2.net, fs, ie.2.writeExc⟩).1 ::
             (runBoardGo
                (snagLoopStep st
                  (snag_sound ie.1.1 ie.1.2 ⟨ie.2.net, fs, ie.2.writeExc⟩).1)
                (applyWrite fs
                  (snag_sound ie.1.1 ie.1.2 ⟨ie.2.net, fs, ie.2.writeExc⟩).2.wrote)
                rest).2.2) := rfl
  rw [hu, h, h0]
  rfl

theorem snag_sound_skip {sid title : List Char} {w : SnagWorld} {resp : HttpResponse}
    (hn : w.net = NetResult.ok resp) (hs : resp.status = 200)
    (hf : snagFinalName sid title resp ∈ w.fs) :
    snag_sound sid title w
      = (Outcome.skipped (snagFinalName sid title resp), ⟨true, false, none⟩) := by
  obtain ⟨net, fs, wexc⟩ := w
  simp only at hn hf
  subst hn
  unfold snag_sound
  simp only
  rw [if_neg (by rw [hs]; exact fun h => h rfl), if_pos hf]

theorem runBoardGo_all_skip : ∀ (items : List ((List Char × List Char) × ItemEnv))
    (st : RunState) (fs0 : List (List Char)),
    st.stopped = false →
    (∀ ie ∈ items, ∃ resp, ie.2.net = NetResult.ok resp ∧ resp.status = 200 ∧
      snagFinalName ie.1.1 ie.1.2 resp ∈ fs0) →
    (runBoardGo st fs0 items).1.stopped = false ∧
    (runBoardGo st fs0 items).1.snagged = st.snagged ∧
    (runBoardGo st fs0 items).1.processed = st.processed + items.length ∧
    (runBoardGo st fs0 items).2.1 = fs0 ∧
    (∀ o ∈ (runBoardGo st fs0 items).2.2, ∃ fn, o = Outcome.skipped fn)
  | [], st, fs0, h0, _ => by
    exact ⟨h0, rfl, rfl, rfl, by intro o ho; simp [runBoardGo] at ho⟩
  | ie :: rest, st, fs0, h0, hall => by
    obtain ⟨resp, hn, hs, hf⟩ := hall ie (List.mem_cons_self _ _)
    have hsnag : snag_sound ie.1.1 ie.1.2 ⟨ie.2.net, fs0, ie.2.writeExc⟩
        = (Outcome.skipped (snagFinalName ie.1.1 ie.1.2 resp), ⟨true, false, none⟩) :=
      snag_sound_skip (w := ⟨ie.2.net, fs0, ie.2.writeExc⟩) hn hs hf
    rw [runBoardGo_cons_eq h0 hsnag]
    rw [show applyWrite fs0 (⟨true, false, none⟩ : SnagEffects).wrote = fs0 from rfl]
    have hstep : snagLoopStep st (Outcome.skipped (snagFinalName ie.1.1 ie.1.2 resp))
        = { st with
            processed := st.processed + 1
            existing := st.existing + 1
            consecutive := 0 } := rfl
    have ih := runBoardGo_all_skip rest
      (snagLoopStep st (Outcome.skipped (snagFinalName ie.1.1 ie.1.2 resp))) fs0
      (by rw [hstep]; exact h0)
      (fun ie2 h2 => hall ie2 (List.mem_cons_of_mem _ h2))
    refine ⟨ih.1, ?_, ?_, ih.2.2.2.1, ?_⟩
    · rw [ih.2.1, hstep]
    · rw [ih.2.2.1, hstep]
      show st.processed + 1 + rest.length = st.processed + (rest.length + 1)
      omega
    · intro o ho
      rw [List.mem_cons] at ho
      cases ho with
      | inl h => exact ⟨snagFinalName ie.1.1 ie.1.2 resp, h⟩
      | inr h => exact ih.2.2.2.2 o h

/-- Claim C7 counterexample: the on-disk existence check runs only after
`urlopen` succeeds with status 200, so a sound whose final filename is
already present still yields Failed, not Skipped, when the request raises
a network error. -/
theorem snag_skip_existing_cx :
    snagFinalName "1".data "a".data ⟨200, [], 0⟩
        ∈ [sanitize_filename ("a".data ++ ".mp3".data) "1".data "a".data] ∧
      snag_sound "1".data "a".data
          ⟨NetResult.urlError "down".data,
            [sanitize_filename ("a".data ++ ".mp3".data) "1".data "a".data], none⟩
        = (Outcome.failed ("Network error: ".data ++ "down".data),
            ⟨true, false, none⟩) := by
  exact ⟨by decide, rfl⟩

/-- Claim C7 (corrected, amended): when the request succeeds with status
200 and the computed final filename is already on disk, the attempt is
Skipped, the body is never read and nothing is written (so the existing
file is untouched) — though the HTTP request itself is still issued, since
`urlopen` precedes the existence check; consequently a rerun in which
every item's request returns status 200 and every item's final filename is
already in the directory produces all Skipped outcomes, zero Saved, leaves
the directory contents unchanged, and processes every item without
stopping. -/
theorem snag_skip_existing :
    (∀ (sid title : List Char) (w : SnagWorld) (resp : HttpResponse),
      w.net = NetResult.ok resp → resp.status = 200 →
      snagFinalName sid title resp ∈ w.fs →
      snag_sound sid title w
        = (Outcome.skipped (snagFinalName sid title resp), ⟨true, false, none⟩)) ∧
    (∀ (items : List ((List Char × List Char) × ItemEnv)) (fs0 : List (List Char)),
      (∀ ie ∈ items, ∃ resp, ie.2.net = NetResult.ok resp ∧ resp.status = 200 ∧
        snagFinalName ie.1.1 ie.1.2 resp ∈ fs0) →
      (runBoard items fs0).2.1 = fs0 ∧
      (runBoard items fs0).1.snagged = 0 ∧
      (runBoard items fs0).1.stopped = false ∧
      (runBoard items fs0).1.processed = items.length ∧
      ∀ o ∈ (runBoard items fs0).2.2, ∃ fn, o = Outcome.skipped fn) := by
  constructor
  · intro sid title w resp hn hs hf
    exact snag_sound_skip hn hs hf
  · intro items fs0 hall
    have h := runBoardGo_all_skip items initialRunState fs0 rfl hall
    refine ⟨h.2.2.2.1, ?_, h.1, ?_, h.2.2.2.2⟩
    · show (runBoardGo initialRunState fs0 items).1.snagged = 0
      rw [h.2.1]
      rfl
    · show (runBoardGo initialRunState fs0 items).1.processed = items.length
      rw [h.2.2.1]
      show 0 + items.length = items.length
      omega

/-- Claim C7 witness: the skip equation and the rerun property
instantiated on a one-item board whose final filename is on disk. -/
theorem snag_skip_existing_witness :
    snag_sound "1".data "a".data
        ⟨NetResult.ok ⟨200, [], 5⟩,
          [snagFinalName "1".data "a".data ⟨200, [], 5⟩], none⟩
      = (Outcome.skipped (snagFinalName "1".data "a".data ⟨200, [], 5⟩),
          ⟨true, false, none⟩) ∧
    ((runBoard [(("1".data, "a".data), ⟨NetResult.ok ⟨200, [], 5⟩, none⟩)]
        [snagFinalName "1".data "a".data ⟨200, [], 5⟩]).2.1
      = [snagFinalName "1".data "a".data ⟨200, [], 5⟩] ∧
    (runBoard [(("1".data, "a".data), ⟨NetResult.ok ⟨200, [], 5⟩, none⟩)]
        [snagFinalName "1".data "a".data ⟨200, [], 5⟩]).1.snagged = 0 ∧
    (runBoard [(("1".data, "a".data), ⟨NetResult.ok ⟨200, [], 5⟩, none⟩)]
        [snagFinalName "1".data "a".data ⟨200, [], 5⟩]).1.stopped = false ∧
    (runBoard [(("1".data, "a".data), ⟨NetResult.ok ⟨200, [], 5⟩, none⟩)]
        [snagFinalName "1".data "a".data ⟨200, [], 5⟩]).1.processed
      = [(("1".data, "a".data),
          (⟨NetResult.ok ⟨200, [], 5⟩, none⟩ : ItemEnv))].length ∧
    ∀ o ∈ (runBoard [(("1".data, "a".data), ⟨NetResult.ok ⟨200, [], 5⟩, none⟩)]
        [snagFinalName "1".data "a".data ⟨200, [], 5⟩]).2.2,
      ∃ fn, o = Outcome.skipped fn) :=
  ⟨snag_skip_existing.1 "1".data "a".data
      ⟨NetResult.ok ⟨200, [], 5⟩,
        [snagFinalName "1".data "a".data ⟨200, [], 5⟩], none⟩
      ⟨200, [], 5⟩ rfl rfl (List.mem_cons_self _ _),
   snag_skip_existing.2 [(("1".data, "a".data), ⟨NetResult.ok ⟨200, [], 5⟩, none⟩)]
      [snagFinalName "1".data "a".data ⟨200, [], 5⟩]
      (fun ie hie => by
        rw [List.mem_singleton] at hie
        subst hie
        exact ⟨⟨200, [], 5⟩, rfl, rfl, List.mem_cons_self _ _⟩)⟩

/-- Claim C10 (confirmed): a single-sound attempt is a total function
returning exactly one of Saved, Skipped or Failed — the modelled `try`
block converts an `HTTPError` into `Failed "HTTP {code}: {reason}"`, a
`URLError` into `Failed "Network error: {reason}"`, any other exception
(including a write error) into `Failed str(e)`, and a non-200 status into
`Failed "HTTP {status}"`; a fresh filename with a clean write yields
Saved. A failure therefore reaches the board loop only as a Failed
outcome, feeding the consecutive-failure cutoff. -/
theorem snag_sound_outcomes :
    (∀ (sid title : List Char) (w : SnagWorld),
      (∃ fn sz, (snag_sound sid title w).1 = Outcome.saved fn sz) ∨
      (∃ fn, (snag_sound sid title w).1 = Outcome.skipped fn) ∨
      (∃ r, (snag_sound sid title w).1 = Outcome.failed r)) ∧
    (∀ (sid title : List Char) (fs : List (List Char)) (wexc : Option (List Char))
        (code : Nat) (reason : List Char),
      (snag_sound sid title ⟨NetResult.httpError code reason, fs, wexc⟩).1
        = Outcome.failed ("HTTP ".data ++ (toString code).data ++ ": ".data ++ reason)) ∧
    (∀ (sid title : List Char) (fs : List (List Char)) (wexc : Option (List Char))
        (reason : List Char),
      (snag_sound sid title ⟨NetResult.urlError reason, fs, wexc⟩).1
        = Outcome.failed ("Network error: ".data ++ reason)) ∧
    (∀ (sid title : List Char) (fs : List (List Char)) (wexc : Option (List Char))
        (msg : List Char),
      (snag_sound sid title ⟨NetResult.otherExc msg, fs, wexc⟩).1
        = Outcome.failed msg) ∧
    (∀ (sid title : List Char) (fs : List (List Char)) (wexc : Option (List Char))
        (resp : HttpResponse), resp.status ≠ 200 →
      (snag_sound sid title ⟨NetResult.ok resp, fs, wexc⟩).1
        = Outcome.failed ("HTTP ".data ++ (toString resp.status).data)) ∧
    (∀ (sid title : List Char) (fs : List (List Char)) (resp : HttpResponse)
        (msg : List Char), resp.status = 200 →
      snagFinalName sid title resp ∉ fs →
      (snag_sound sid title ⟨NetResult.ok resp, fs, some msg⟩).1
        = Outcome.failed msg) ∧
    (∀ (sid title : List Char) (fs : List (List Char)) (resp : HttpResponse),
      resp.status = 200 → snagFinalName sid title resp ∉ fs →
      (snag_sound sid title ⟨NetResult.ok resp, fs, none⟩)
        = (Outcome.saved (snagFinalName sid title resp) resp.sizeKB,
            ⟨true, true, some (snagFinalName sid title resp)⟩)) := by
  refine ⟨?_, ?_, ?_, ?_, ?_, ?_, ?_⟩
  · intro sid title w
    obtain ⟨net, fs, wexc⟩ := w
    cases net with
    | ok resp =>
      unfold snag_sound
      simp only
      by_cases hstatus : resp.status ≠ 200
      · rw [if_pos hstatus]
        exact Or.inr (Or.inr ⟨_, rfl⟩)
      · rw [if_neg hstatus]
        by_cases hmem : snagFinalName sid title resp ∈ fs
        · rw [if_pos hmem]
          exact Or.inr (Or.inl ⟨_, rfl⟩)
        · rw [if_neg hmem]
          cases wexc with
          | some msg => exact Or.inr (Or.inr ⟨_, rfl⟩)
          | none => exact Or.inl ⟨_, _, rfl⟩
    | httpError code reason => exact Or.inr (Or.inr ⟨_, rfl⟩)
    | urlError reason => exact Or.inr (Or.inr ⟨_, rfl⟩)
    | otherExc msg => exact Or.inr (Or.inr ⟨_, rfl⟩)
  · intro sid title fs wexc code reason; rfl
  · intro sid title fs wexc reason; rfl
  · intro sid title fs wexc msg; rfl
  · intro sid title fs wexc resp hstatus
    unfold snag_sound
    simp only
    rw [if_pos hstatus]
  · intro sid title fs resp msg hs hmem
    unfold snag_sound
    simp only
    rw [if_neg (by rw [hs]; exact fun h => h rfl), if_neg hmem]
  · intro sid title fs resp hs hmem
    unfold snag_sound
    simp only
    rw [if_neg (by rw [hs]; exact fun h => h rfl), if_neg hmem]

/-- Claim C10 witness: the non-200 and the clean-save equations at
concrete inputs. -/
theorem snag_sound_outcomes_witness :
    (snag_sound "1".data [] ⟨NetResult.ok ⟨404, [], 0⟩, [], none⟩).1
      = Outcome.failed ("HTTP ".data ++ (toString 404).data) ∧
    (snag_sound "1".data [] ⟨NetResult.ok ⟨200, [], 7⟩, [], none⟩)
      = (Outcome.saved (snagFinalName "1".data [] ⟨200, [], 7⟩) 7,
          ⟨true, true, some (snagFinalName "1".data [] ⟨200, [], 7⟩)⟩) :=
  ⟨snag_sound_outcomes.2.2.2.2.1 "1".data [] [] none ⟨404, [], 0⟩ (by decide),
   snag_sound_outcomes.2.2.2.2.2.2 "1".data [] [] ⟨200, [], 7⟩ rfl (by decide)⟩

theorem parseDigitsU_digits : ∀ (l : List Char) (acc : Nat),
    (∀ c ∈ l, isDigitCh c = true) →
    parseDigitsU acc l = some (l.foldl (fun a c => 10 * a + (c.toNat - 48)) acc)
  | [], _, _ => rfl
  | c :: t, acc, h => by
    unfold parseDigitsU
    rw [if_pos (h c (List.mem_cons_self _ _))]
    rw [parseDigitsU_digits t _ (fun d hd => h d (List.mem_cons_of_mem _ hd))]
    rfl

theorem pyIntCore_digits {l : List Char} (hne : l ≠ [])
    (h : ∀ c ∈ l, isDigitCh c = true) :
    pyIntCore l = some ((digitsVal l : Nat) : Int) := by
  have hstrip : pyStrip l = l := pyStrip_id
    (fun d hd => by
      cases l with
      | nil => simp at hd
      | cons c t =>
        injection hd with h1
        rw [← h1]
        exact (digit_char_props (h c (List.mem_cons_self _ _))).2.2.2.1)
    (fun d hd => by
      have hdm : d ∈ l.reverse := by
        cases hrev : l.reverse with
        | nil => rw [hrev] at hd; simp at hd
        | cons e r =>
          rw [hrev] at hd
          injection hd with h1
          rw [← h1]
          exact List.mem_cons_self _ _
      exact (digit_char_props (h d (List.mem_reverse.mp hdm))).2.2.2.1)
  unfold pyIntCore
  rw [hstrip]
  cases l with
  | nil => exact absurd rfl hne
  | cons c t =>
    have hc := h c (List.mem_cons_self _ _)
    have hplus : ¬(c = '+') := by
      intro he
      rw [he] at hc
      exact absurd hc (by decide)
    have hminus : ¬(c = '-') := (digit_char_props hc).1
    simp only [pyIntSigned]
    rw [if_neg hplus, if_neg hminus, if_pos hc,
      parseDigitsU_digits t _ (fun d hd => h d (List.mem_cons_of_mem _ hd))]
    have hv : digitsVal (c :: t)
        = t.foldl (fun a d => 10 * a + (d.toNat - 48)) (c.toNat - 48) := by
      show t.foldl (fun a d => 10 * a + (d.toNat - 48)) (10 * 0 + (c.toNat - 48)) = _
      rw [Nat.mul_zero, Nat.zero_add]
    rw [hv]
    rfl

theorem viewsInt_rc_nil {s : List Char} (hrc : removeCommas s = []) :
    viewsInt s = 0 := by
  unfold viewsInt
  by_cases hs : s = []
  · rw [if_pos hs]
  · rw [if_neg hs, hrc]
    rfl

/-- Claim C9 counterexample: the extracted string `-5` parses to a
negative views integer. -/
theorem views_negative_cx : viewsInt "-5".data = -5 ∧ viewsInt "-5".data < 0 :=
  ⟨by decide, by decide⟩

/-- Claim C9 (corrected, amended): a views string of digits with optional
comma grouping parses to its non-negative decimal value with the commas
removed, the absent (empty) string parses to 0, and any string `int`
rejects parses to 0; but the guarantee is only non-negativity over that
grammar — a stray minus sign, e.g. `-5`, parses negative, since `int`
accepts signs. -/
theorem views_parse :
    (∀ s : List Char, (∀ c ∈ s, isDigitCh c = true ∨ c = ',') → 0 ≤ viewsInt s) ∧
    (∀ s : List Char, (∀ c ∈ s, isDigitCh c = true ∨ c = ',') →
      removeCommas s ≠ [] →
      viewsInt s = ((digitsVal (removeCommas s) : Nat) : Int)) ∧
    viewsInt [] = 0 ∧
    (∀ s : List Char, s ≠ [] → pyIntCore (removeCommas s) = none → viewsInt s = 0) := by
  have hdig : ∀ s : List Char, (∀ c ∈ s, isDigitCh c = true ∨ c = ',') →
      ∀ c ∈ removeCommas s, isDigitCh c = true := by
    intro s hs c hc
    rw [removeCommas, List.mem_filter] at hc
    cases hs c hc.1 with
    | inl h => exact h
    | inr h =>
      rw [h] at hc
      exact absurd hc.2 (by decide)
  have hmain : ∀ s : List Char, (∀ c ∈ s, isDigitCh c = true ∨ c = ',') →
      removeCommas s ≠ [] →
      viewsInt s = ((digitsVal (removeCommas s) : Nat) : Int) := by
    intro s hs hrc
    have hsne : s ≠ [] := by
      intro he
      rw [he] at hrc
      exact hrc rfl
    unfold viewsInt
    rw [if_neg hsne, pyIntCore_digits hrc (hdig s hs)]
  refine ⟨?_, hmain, rfl, ?_⟩
  · intro s hs
    by_cases hrc : removeCommas s = []
    · rw [viewsInt_rc_nil hrc]
    · rw [hmain s hs hrc]
      exact Int.natCast_nonneg _
  · intro s hsne hnone
    unfold viewsInt
    rw [if_neg hsne, hnone]

/-- Claim C9 witness: the comma-grouped string `1,234` parses to 1234. -/
theorem views_parse_witness :
    (∀ c ∈ "1,234".data, isDigitCh c = true ∨ c = ',') ∧
      removeCommas "1,234".data ≠ [] ∧
      viewsInt "1,234".data = ((digitsVal (removeCommas "1,234".data) : Nat) : Int) :=
  ⟨by decide, by decide, views_parse.2.1 "1,234".data (by decide) (by decide)⟩

theorem mem_insertDesc : ∀ {a b : BoardInfo} {l : List BoardInfo},
    a ∈ insertDesc b l ↔ a = b ∨ a ∈ l := by
  intro a b l
  induction l with
  | nil => simp [insertDesc]
  | cons c t ih =>
    unfold insertDesc
    by_cases h : c.viewsInt ≤ b.viewsInt
    · rw [if_pos h]
      simp
    · rw [if_neg h]
      simp only [List.mem_cons, ih]
      tauto

theorem mem_sortByViewsDesc : ∀ {a : BoardInfo} {l : List BoardInfo},
    a ∈ sortByViewsDesc l ↔ a ∈ l := by
  intro a l
  induction l with
  | nil => exact Iff.rfl
  | cons b t ih =>
    unfold sortByViewsDesc
    rw [mem_insertDesc, List.mem_cons, ih]

theorem searchAnalyzeGo_results : ∀ (boards : List BoardInfo)
    (minViews minSounds : Int) (target dcount : Nat),
    (searchAnalyzeGo minViews minSounds target dcount boards).1
      = (searchAnalyzeGo minViews minSounds target dcount boards).2.filter
          (meets_filters minViews minSounds)
  | [], _, _, _, _ => rfl
  | b :: rest, minViews, minSounds, target, dcount => by
    unfold searchAnalyzeGo
    by_cases hcut : target ≤ dcount
    · rw [if_pos hcut]
      rfl
    · rw [if_neg hcut]
      by_cases hm : meets_filters minViews minSounds b = true
      · rw [if_pos hm]
        show b :: (searchAnalyzeGo minViews minSounds target
              (if b.hasDownloads then dcount + 1 else dcount) rest).1
          = List.filter (meets_filters minViews minSounds)
              (b :: (searchAnalyzeGo minViews minSounds target
                (if b.hasDownloads then dcount + 1 else dcount) rest).2)
        rw [searchAnalyzeGo_results rest minViews minSounds target
          (if b.hasDownloads then dcount + 1 else dcount)]
        rw [List.filter_cons, if_pos hm]
      · rw [if_neg hm]
        show (searchAnalyzeGo minViews minSounds target dcount rest).1
          = List.filter (meets_filters minViews minSounds)
              (b :: (searchAnalyzeGo minViews minSounds target dcount rest).2)
        rw [searchAnalyzeGo_results rest minViews minSounds target dcount]
        rw [List.filter_cons, if_neg hm]

/-- Claim C8 counterexample: a play-only board that meets every filter is
still excluded from the final results (the `r[1]` filter removes boards
without download buttons), so exclusion is not equivalent to the
views/sounds filter condition. -/
theorem search_filter_iff_cx :
    meets_filters 0 0 ⟨"b".data, false, 10, 5⟩ = true ∧
      (⟨"b".data, false, 10, 5⟩ : BoardInfo)
          ∈ (search_boards_model 0 0 20 [⟨"b".data, false, 10, 5⟩]).2 ∧
      (⟨"b".data, false, 10, 5⟩ : BoardInfo)
          ∉ (search_boards_model 0 0 20 [⟨"b".data, false, 10, 5⟩]).1 := by
  refine ⟨rfl, by decide, by decide⟩

/-- Claim C8 (corrected, amended): among the analyzed boards, membership
in the final results is equivalent to having download buttons AND meeting
the filters — `meets_filters` is exactly
`not ((minViews > 0 and v < minViews) or (minSounds > 0 and s < minSounds))`
— so for downloadable analyzed boards the claimed exclusion equivalence
holds, and the claim's concrete instances hold for a downloadable board
with views 5 and 10 sounds. -/
theorem search_filter_membership :
    (∀ (minViews minSounds : Int) (target : Nat) (boards : List BoardInfo)
        (b : BoardInfo),
      b ∈ (search_boards_model minViews minSounds target boards).1
        ↔ b ∈ (search_boards_model minViews minSounds target boards).2
            ∧ b.hasDownloads = true ∧ meets_filters minViews minSounds b = true) ∧
    (∀ (minViews minSounds : Int) (b : BoardInfo),
      meets_filters minViews minSounds b = false
        ↔ ((0 < minViews ∧ b.viewsInt < minViews)
            ∨ (0 < minSounds ∧ (b.soundCount : Int) < minSounds))) ∧
    (⟨"b".data, true, 10, 5⟩ : BoardInfo)
        ∉ (search_boards_model 10 0 20 [⟨"b".data, true, 10, 5⟩]).1 ∧
    (⟨"b".data, true, 10, 5⟩ : BoardInfo)
        ∈ (search_boards_model 0 0 20 [⟨"b".data, true, 10, 5⟩]).1 := by
  refine ⟨?_, ?_, by decide, by decide⟩
  · intro minViews minSounds target boards b
    unfold search_boards_model
    rw [mem_sortByViewsDesc, List.mem_filter,
      searchAnalyzeGo_results boards minViews minSounds target 0, List.mem_filter]
    tauto
  · intro minViews minSounds b
    unfold meets_filters
    simp
    omega

end SBSnag
